import Mathlib

/-!
Verification of the SHEM orchestrator and its `shemmsg` message codec.

The Go sources are shallowly embedded: Go strings and byte slices become
`List Char` (the protocol is ASCII, so bytes and characters coincide on all
accepted inputs), `float64` becomes an explicit sum type over `ℚ` with a
separate sign (so that the sign of a zero is representable), fallible
functions return `Option` or `Except`, and the effectful parts (spawning the
verification child, podman calls, file writes) become explicit state passing
with the externally supplied data (directory listings, remote version sets,
verification outcomes, child exit status) taken as parameters.
-/

set_option maxRecDepth 10000

namespace Shem

/-- Go strings and byte slices are modelled as lists of characters. -/
abbrev GoStr := List Char

/-! ### Models of the Go standard library helpers used by the sources -/

/-- Model of `unicode.IsSpace` restricted to ASCII, which is the only part
reachable through the printable-ASCII protocol and the configuration files. -/
def isGoSpace (c : Char) : Bool :=
  c = ' ' ∨ c = '\t' ∨ c = '\n' ∨ c = '\u000b' ∨ c = '\u000c' ∨ c = '\r'

/-- Model of `strings.TrimSpace`. -/
def goTrimSpace (s : GoStr) : GoStr :=
  ((s.dropWhile isGoSpace).reverse.dropWhile isGoSpace).reverse

/-- Splits a string at every character satisfying `p`, keeping empty pieces,
the common core of `strings.Split` (one-character separator) and
`strings.Fields`. -/
def splitBy (p : Char → Bool) : GoStr → List GoStr
  | [] => [[]]
  | c :: cs =>
    match splitBy p cs with
    | [] => [[]]
    | l :: ls => if p c then [] :: l :: ls else (c :: l) :: ls

/-- Model of `strings.Split` with a one-character separator. -/
def goSplitOn (sep : Char) (s : GoStr) : List GoStr :=
  splitBy (fun c => c = sep) s

/-- Model of `strings.Fields`: split on whitespace runs, dropping empties. -/
def goFields (s : GoStr) : List GoStr :=
  (splitBy isGoSpace s).filter (· ≠ [])

def isDigitB (c : Char) : Bool := '0' ≤ c ∧ c ≤ '9'

/-- Numeric value of a string of decimal digits. -/
def digitsToNat (ds : GoStr) : Nat :=
  ds.foldl (fun a c => a * 10 + (c.toNat - 48)) 0

/-- The digits part of `strconv.Atoi`: at least one digit, all digits, and
the signed value must fit in an `int64`. -/
def goAtoiDigits (neg : Bool) (ds : GoStr) : Option Int :=
  if ds = [] ∨ ¬ ds.all isDigitB then none
  else
    let n : Nat := digitsToNat ds
    if neg then
      if n ≤ 2 ^ 63 then some (-(n : Int)) else none
    else
      if n ≤ 2 ^ 63 - 1 then some (n : Int) else none

/-- Model of `strconv.Atoi` on a 64-bit platform: an optional sign followed
by the digits. -/
def goAtoi (s : GoStr) : Option Int :=
  match s with
  | [] => none
  | c :: cs =>
    if c = '-' then goAtoiDigits true cs
    else if c = '+' then goAtoiDigits false cs
    else goAtoiDigits false (c :: cs)

/-! ### Version parsing and comparison (`update_manager.go`) -/

/-- Model of `parseVersion`: split on `.`, require exactly three parts, and
parse each with `strconv.Atoi`. -/
def parseVersion (version : GoStr) : Option (Int × Int × Int) :=
  match goSplitOn '.' version with
  | [p1, p2, p3] =>
    match goAtoi p1, goAtoi p2, goAtoi p3 with
    | some major, some minor, some patch => some (major, minor, patch)
    | _, _, _ => none
  | _ => none

/-- The triple a version string is compared by: its parse, or `(0, 0, 0)` when
the parse fails (`compareVersions` ignores the parse errors). -/
def verTriple (v : GoStr) : Int × Int × Int :=
  (parseVersion v).getD (0, 0, 0)

/-- The comparison chain of `compareVersions` on two parsed triples:
major first, then minor, then patch. -/
def cmpTriple : Int × Int × Int → Int × Int × Int → Int
  | (maj1, min1, pat1), (maj2, min2, pat2) =>
    if maj1 ≠ maj2 then (if maj1 > maj2 then 1 else -1)
    else if min1 ≠ min2 then (if min1 > min2 then 1 else -1)
    else if pat1 ≠ pat2 then (if pat1 > pat2 then 1 else -1)
    else 0

/-- Model of `compareVersions`: `-1`, `0` or `1` by the lexicographic
comparison of the parsed triples. -/
def compareVersions (v1 v2 : GoStr) : Int :=
  cmpTriple (verTriple v1) (verTriple v2)

/-- Strict lexicographic order on integer triples. -/
def lexLt (t1 t2 : Int × Int × Int) : Prop :=
  t1.1 < t2.1 ∨ (t1.1 = t2.1 ∧ (t1.2.1 < t2.2.1 ∨ (t1.2.1 = t2.2.1 ∧ t1.2.2 < t2.2.2)))

instance (t1 t2 : Int × Int × Int) : Decidable (lexLt t1 t2) := by
  unfold lexLt; infer_instance

theorem lexLt_trans {a b c : Int × Int × Int} (h1 : lexLt a b) (h2 : lexLt b c) :
    lexLt a c := by
  obtain ⟨a1, a2, a3⟩ := a; obtain ⟨b1, b2, b3⟩ := b; obtain ⟨c1, c2, c3⟩ := c
  simp only [lexLt] at *
  omega

theorem lexLt_trichotomy (a b : Int × Int × Int) :
    lexLt a b ∨ a = b ∨ lexLt b a := by
  obtain ⟨a1, a2, a3⟩ := a; obtain ⟨b1, b2, b3⟩ := b
  simp only [lexLt, Prod.mk.injEq]
  omega

theorem cmpTriple_char (t1 t2 : Int × Int × Int) :
    (cmpTriple t1 t2 = -1 ↔ lexLt t1 t2) ∧
    (cmpTriple t1 t2 = 0 ↔ t1 = t2) ∧
    (cmpTriple t1 t2 = 1 ↔ lexLt t2 t1) := by
  obtain ⟨a1, a2, a3⟩ := t1; obtain ⟨b1, b2, b3⟩ := t2
  simp only [cmpTriple, lexLt, Prod.mk.injEq]
  refine ⟨⟨?_, ?_⟩, ⟨?_, ?_⟩, ⟨?_, ?_⟩⟩ <;>
    first
      | (intro h; split_ifs at h <;> omega)
      | (intro h; split_ifs <;> omega)

/-- Characterisation of `compareVersions` by the lexicographic order on the
parsed triples. -/
theorem compareVersions_char (v1 v2 : GoStr) :
    (compareVersions v1 v2 = -1 ↔ lexLt (verTriple v1) (verTriple v2)) ∧
    (compareVersions v1 v2 = 0 ↔ verTriple v1 = verTriple v2) ∧
    (compareVersions v1 v2 = 1 ↔ lexLt (verTriple v2) (verTriple v1)) :=
  cmpTriple_char (verTriple v1) (verTriple v2)

theorem compareVersions_cases (v1 v2 : GoStr) :
    compareVersions v1 v2 = -1 ∨ compareVersions v1 v2 = 0 ∨
      compareVersions v1 v2 = 1 := by
  unfold compareVersions
  obtain ⟨a1, a2, a3⟩ := verTriple v1
  obtain ⟨b1, b2, b3⟩ := verTriple v2
  simp only [cmpTriple]
  split_ifs <;> simp

theorem compareVersions_le_iff (v1 v2 : GoStr) :
    compareVersions v1 v2 ≤ 0 ↔
      (lexLt (verTriple v1) (verTriple v2) ∨ verTriple v1 = verTriple v2) := by
  obtain ⟨h1, h2, h3⟩ := compareVersions_char v1 v2
  constructor
  · intro hle
    rcases compareVersions_cases v1 v2 with h | h | h
    · exact Or.inl (h1.mp h)
    · exact Or.inr (h2.mp h)
    · rw [h] at hle; omega
  · intro hor
    rcases hor with ho | ho
    · have := h1.mpr ho; omega
    · have := h2.mpr ho; omega

theorem compareVersions_pos_iff (v1 v2 : GoStr) :
    0 < compareVersions v1 v2 ↔ lexLt (verTriple v2) (verTriple v1) := by
  obtain ⟨h1, h2, h3⟩ := compareVersions_char v1 v2
  constructor
  · intro hpos
    rcases compareVersions_cases v1 v2 with h | h | h
    · rw [h] at hpos; omega
    · rw [h] at hpos; omega
    · exact h3.mp h
  · intro hlex
    have := h3.mpr hlex; omega

/-- Transitivity bridge used by the maximum-selection loops: a version `w`
that beats the minimum `m` and is dominated by `v` shows `v` beats `m`. -/
theorem compareVersions_pos_trans {w v m : GoStr}
    (h1 : 0 < compareVersions v m) (h2 : compareVersions v w ≤ 0) :
    0 < compareVersions w m := by
  rw [compareVersions_pos_iff] at h1 ⊢
  rw [compareVersions_le_iff] at h2
  rcases h2 with h2 | h2
  · exact lexLt_trans h1 h2
  · rw [← h2]; exact h1

theorem compareVersions_le_trans {a b c : GoStr}
    (h1 : compareVersions a b ≤ 0) (h2 : compareVersions b c ≤ 0) :
    compareVersions a c ≤ 0 := by
  rw [compareVersions_le_iff] at h1 h2 ⊢
  rcases h1 with h1 | h1 <;> rcases h2 with h2 | h2
  · exact Or.inl (lexLt_trans h1 h2)
  · rw [← h2]; exact Or.inl h1
  · rw [h1]; exact Or.inl h2
  · rw [h1]; exact Or.inr h2

theorem compareVersions_total (a b : GoStr) :
    compareVersions a b ≤ 0 ∨ compareVersions b a ≤ 0 := by
  rw [compareVersions_le_iff, compareVersions_le_iff]
  rcases lexLt_trichotomy (verTriple a) (verTriple b) with h | h | h
  · exact Or.inl (Or.inl h)
  · exact Or.inl (Or.inr h)
  · exact Or.inr (Or.inl h)

theorem not_le_compareVersions {a b : GoStr} (h : ¬ compareVersions a b ≤ 0) :
    compareVersions b a ≤ 0 := by
  rcases compareVersions_total a b with h' | h'
  · exact absurd h' h
  · exact h'

/-- `compareVersions` only looks at the parsed triples, so two strings with
the same triple compare identically against everything. -/
theorem compareVersions_congr {s t : GoStr} (h : verTriple s = verTriple t)
    (v : GoStr) : compareVersions s v = compareVersions t v := by
  unfold compareVersions
  rw [h]

/-- Spec-words definition (for the refutation of the malformed-string rule):
a dotted triple of non-negative decimal integers, that is, three dot-separated
non-empty all-digit components. -/
def specNonNegTripleFormat (s : GoStr) : Bool :=
  match goSplitOn '.' s with
  | [p1, p2, p3] => p1 ≠ [] ∧ p1.all isDigitB ∧ p2 ≠ [] ∧ p2.all isDigitB ∧
      p3 ≠ [] ∧ p3.all isDigitB
  | _ => false

/-! ### Eligible-version selection (`findLatestEligibleVersion`) -/

/-- One step of the selection loop body of `findLatestEligibleVersion`:
skip blacklisted versions, skip versions not above the minimum, otherwise
keep the larger of the candidate and the current best. -/
def eligStep (minimumVersion : GoStr) (blacklist : List GoStr)
    (latest version : GoStr) : GoStr :=
  if version ∈ blacklist then latest
  else if minimumVersion ≠ [] ∧ compareVersions version minimumVersion ≤ 0 then
    latest
  else if latest = [] then version
  else if 0 < compareVersions version latest then version
  else latest

/-- Model of `findLatestEligibleVersion`. The remote version set (obtained in
Go through `findRemoteVersions`, an external podman call) is passed in as the
list `versions`; `none` models the error return. -/
def findLatestEligibleVersion (versions : List GoStr) (minimumVersion : GoStr)
    (blacklist : List GoStr) : Option GoStr :=
  if versions = [] then none
  else
    let latest := versions.foldl (eligStep minimumVersion blacklist) []
    if latest = [] then none else some latest

/-- A version passes the two skip-filters of the selection loop
(`minimumVersion` assumed non-empty). -/
def PassFilters (minimumVersion : GoStr) (blacklist : List GoStr)
    (v : GoStr) : Prop :=
  v ∉ blacklist ∧ 0 < compareVersions v minimumVersion

theorem eligFold_inv {minimumVersion : GoStr} {blacklist : List GoStr}
    (hmin : minimumVersion ≠ []) :
    ∀ (l : List GoStr) (acc : GoStr), [] ∉ l →
      (acc = [] ∨ PassFilters minimumVersion blacklist acc) →
      (l.foldl (eligStep minimumVersion blacklist) acc = [] →
        acc = [] ∧ ∀ w ∈ l, ¬ PassFilters minimumVersion blacklist w) ∧
      (l.foldl (eligStep minimumVersion blacklist) acc ≠ [] →
        (l.foldl (eligStep minimumVersion blacklist) acc = acc ∨
          (l.foldl (eligStep minimumVersion blacklist) acc ∈ l ∧
            PassFilters minimumVersion blacklist
              (l.foldl (eligStep minimumVersion blacklist) acc))) ∧
        (∀ w ∈ l, PassFilters minimumVersion blacklist w →
          compareVersions w (l.foldl (eligStep minimumVersion blacklist) acc) ≤ 0) ∧
        (acc ≠ [] →
          compareVersions acc (l.foldl (eligStep minimumVersion blacklist) acc) ≤ 0))
  | [], acc, _, hacc => by
    simp only [List.foldl_nil]
    refine ⟨fun h => ⟨h, by simp⟩, fun h => ⟨by simp, by simp, ?_⟩⟩
    intro _
    rcases compareVersions_cases acc acc with hc | hc | hc
    · omega
    · omega
    · obtain ⟨_, h2, _⟩ := compareVersions_char acc acc
      rw [h2.mpr rfl] at hc
      omega
  | v :: l, acc, hnl, hacc => by
    have hv : v ≠ [] := fun h => hnl (h ▸ List.mem_cons_self v l)
    have hl : [] ∉ l := fun h => hnl (List.mem_cons_of_mem v h)
    simp only [List.foldl_cons]
    by_cases hbl : v ∈ blacklist
    · have hstep : eligStep minimumVersion blacklist acc v = acc := by
        unfold eligStep
        rw [if_pos hbl]
      rw [hstep]
      obtain ⟨ih1, ih2⟩ := eligFold_inv hmin l acc hl hacc
      refine ⟨fun h => ⟨(ih1 h).1, ?_⟩, fun h => ?_⟩
      · intro w hw
        rcases List.mem_cons.mp hw with hw | hw
        · subst hw; exact fun hp => hp.1 hbl
        · exact (ih1 h).2 w hw
      · obtain ⟨o, d, a⟩ := ih2 h
        refine ⟨?_, ?_, a⟩
        · rcases o with o | o
          · exact Or.inl o
          · exact Or.inr ⟨List.mem_cons_of_mem v o.1, o.2⟩
        · intro w hw hp
          rcases List.mem_cons.mp hw with hw | hw
          · subst hw; exact absurd hbl hp.1
          · exact d w hw hp
    · by_cases hcmp : compareVersions v minimumVersion ≤ 0
      · have hstep : eligStep minimumVersion blacklist acc v = acc := by
          unfold eligStep
          rw [if_neg hbl, if_pos ⟨hmin, hcmp⟩]
        rw [hstep]
        obtain ⟨ih1, ih2⟩ := eligFold_inv hmin l acc hl hacc
        refine ⟨fun h => ⟨(ih1 h).1, ?_⟩, fun h => ?_⟩
        · intro w hw
          rcases List.mem_cons.mp hw with hw | hw
          · subst hw; exact fun hp => by have := hp.2; omega
          · exact (ih1 h).2 w hw
        · obtain ⟨o, d, a⟩ := ih2 h
          refine ⟨?_, ?_, a⟩
          · rcases o with o | o
            · exact Or.inl o
            · exact Or.inr ⟨List.mem_cons_of_mem v o.1, o.2⟩
          · intro w hw hp
            rcases List.mem_cons.mp hw with hw | hw
            · subst hw; have := hp.2; omega
            · exact d w hw hp
      · have hpassv : PassFilters minimumVersion blacklist v := ⟨hbl, by omega⟩
        have hstep : eligStep minimumVersion blacklist acc v =
            if acc = [] then v
            else if 0 < compareVersions v acc then v else acc := by
          unfold eligStep
          rw [if_neg hbl, if_neg (by rintro ⟨_, hc⟩; exact hcmp hc)]
        -- in every remaining case the new accumulator is `v` or `acc`, both
        -- non-empty or passing, so the inner invariant applies
        by_cases haccnil : acc = []
        · rw [hstep, if_pos haccnil]
          obtain ⟨ih1, ih2⟩ := eligFold_inv hmin l v hl (Or.inr hpassv)
          refine ⟨fun h => absurd ((ih1 h).1) hv, fun h => ?_⟩
          obtain ⟨o, d, a⟩ := ih2 h
          have hvr := a hv
          refine ⟨?_, ?_, fun hne => absurd rfl (haccnil ▸ hne)⟩
          · rcases o with o | o
            · refine Or.inr ⟨?_, ?_⟩ <;> rw [o] <;> first | exact List.mem_cons_self v l | exact hpassv
            · exact Or.inr ⟨List.mem_cons_of_mem v o.1, o.2⟩
          · intro w hw hp
            rcases List.mem_cons.mp hw with hw | hw
            · subst hw; exact hvr
            · exact d w hw hp
        · by_cases hbeat : 0 < compareVersions v acc
          · rw [hstep, if_neg haccnil, if_pos hbeat]
            obtain ⟨ih1, ih2⟩ := eligFold_inv hmin l v hl (Or.inr hpassv)
            refine ⟨fun h => absurd ((ih1 h).1) hv, fun h => ?_⟩
            obtain ⟨o, d, a⟩ := ih2 h
            have hvr := a hv
            have haccv : compareVersions acc v ≤ 0 := by
              rw [compareVersions_le_iff]
              rw [compareVersions_pos_iff] at hbeat
              exact Or.inl hbeat
            refine ⟨?_, ?_, fun _ => compareVersions_le_trans haccv hvr⟩
            · rcases o with o | o
              · refine Or.inr ⟨?_, ?_⟩ <;> rw [o] <;> first | exact List.mem_cons_self v l | exact hpassv
              · exact Or.inr ⟨List.mem_cons_of_mem v o.1, o.2⟩
            · intro w hw hp
              rcases List.mem_cons.mp hw with hw | hw
              · subst hw; exact hvr
              · exact d w hw hp
          · rw [hstep, if_neg haccnil, if_neg hbeat]
            obtain ⟨ih1, ih2⟩ := eligFold_inv hmin l acc hl hacc
            refine ⟨fun h => absurd ((ih1 h).1) haccnil, fun h => ?_⟩
            obtain ⟨o, d, a⟩ := ih2 h
            have haccr := a haccnil
            refine ⟨?_, ?_, a⟩
            · rcases o with o | o
              · exact Or.inl o
              · exact Or.inr ⟨List.mem_cons_of_mem v o.1, o.2⟩
            · intro w hw hp
              rcases List.mem_cons.mp hw with hw | hw
              · subst hw
                exact compareVersions_le_trans (by omega) haccr
              · exact d w hw hp

theorem parseVersion_nil : parseVersion ([] : GoStr) = none := by decide

theorem ne_nil_of_parseVersion_isSome {v : GoStr}
    (h : (parseVersion v).isSome) : v ≠ [] := by
  intro hnil
  rw [hnil, parseVersion_nil] at h
  simp at h

/-- Eligibility as worded by the specification: a remote version, not
blacklisted, strictly above the minimum. -/
def EligibleVersion (versions : List GoStr) (minimumVersion : GoStr)
    (blacklist : List GoStr) (v : GoStr) : Prop :=
  v ∈ versions ∧ v ∉ blacklist ∧ 0 < compareVersions v minimumVersion

instance (versions : List GoStr) (minimumVersion : GoStr)
    (blacklist : List GoStr) (v : GoStr) :
    Decidable (EligibleVersion versions minimumVersion blacklist v) := by
  unfold EligibleVersion; infer_instance

/-- C5: `findLatestEligibleVersion` returns the highest remote version that is
not blacklisted and strictly above the minimum, and reports no update exactly
when no such version exists. The remote versions and the minimum are version
strings (they parse), as produced by `findRemoteVersions` and
`currentModuleVersion`/`scheduledUpdates`. -/
theorem findLatestEligibleVersion_spec (versions : List GoStr)
    (minimumVersion : GoStr) (blacklist : List GoStr)
    (hvers : ∀ v ∈ versions, (parseVersion v).isSome)
    (hmin : (parseVersion minimumVersion).isSome) :
    (∀ v, findLatestEligibleVersion versions minimumVersion blacklist = some v →
        EligibleVersion versions minimumVersion blacklist v ∧
        ∀ w, EligibleVersion versions minimumVersion blacklist w →
          compareVersions w v ≤ 0) ∧
    (findLatestEligibleVersion versions minimumVersion blacklist = none →
        ∀ w, ¬ EligibleVersion versions minimumVersion blacklist w) := by
  have hminne : minimumVersion ≠ [] := ne_nil_of_parseVersion_isSome hmin
  have hnilmem : [] ∉ versions := by
    intro h
    exact absurd (hvers [] h) (by rw [parseVersion_nil]; simp)
  obtain ⟨inv1, inv2⟩ :=
    @eligFold_inv minimumVersion blacklist hminne versions [] hnilmem
      (Or.inl rfl)
  unfold findLatestEligibleVersion
  by_cases hempty : versions = []
  · subst hempty
    refine ⟨fun v hv => by simp at hv, fun _ w hw => ?_⟩
    exact absurd hw.1 (List.not_mem_nil w)
  · rw [if_neg hempty]
    by_cases hlatest : versions.foldl (eligStep minimumVersion blacklist) [] = []
    · rw [if_pos hlatest]
      refine ⟨fun v hv => by simp at hv, fun _ w hw => ?_⟩
      exact (inv1 hlatest).2 w hw.1 ⟨hw.2.1, hw.2.2⟩
    · rw [if_neg hlatest]
      obtain ⟨origin, dom, _⟩ := inv2 hlatest
      refine ⟨fun v hv => ?_, fun h => by simp at h⟩
      have hveq : versions.foldl (eligStep minimumVersion blacklist) [] = v :=
        Option.some.inj hv
      rcases origin with o | o
      · exact absurd o hlatest
      · constructor
        · exact hveq ▸ ⟨o.1, o.2.1, o.2.2⟩
        · intro w hw
          exact hveq ▸ dom w hw.1 ⟨hw.2.1, hw.2.2⟩

/-- Witness for C5 at a concrete input: with remote versions 0.4.9 and 0.5.0,
minimum 0.4.0 and blacklist containing 0.5.0, version 0.4.9 is eligible and is
the selected one. -/
theorem findLatestEligibleVersion_spec_witness :
    (parseVersion ("0.4.0".toList)).isSome = true ∧
    EligibleVersion ["0.4.9".toList, "0.5.0".toList] ("0.4.0".toList)
      ["0.5.0".toList] ("0.4.9".toList) :=
  ⟨by decide,
    ((findLatestEligibleVersion_spec ["0.4.9".toList, "0.5.0".toList]
        ("0.4.0".toList) ["0.5.0".toList] (by decide) (by decide)).1
      ("0.4.9".toList) (by decide)).1⟩

/-- C8 (amended): `compareVersions` realises the lexicographic order on the
parsed `(major, minor, patch)` triples, and a string rejected by
`parseVersion` is treated as `0.0.0`; but `parseVersion` follows
`strconv.Atoi`, which accepts optionally signed 64-bit components, so the
class of strings treated as `0.0.0` is smaller than the spec's
"not a dotted triple of non-negative decimal integers". -/
theorem compareVersions_spec (v1 v2 : GoStr) :
    (compareVersions v1 v2 = -1 ↔ lexLt (verTriple v1) (verTriple v2)) ∧
    (compareVersions v1 v2 = 0 ↔ verTriple v1 = verTriple v2) ∧
    (compareVersions v1 v2 = 1 ↔ lexLt (verTriple v2) (verTriple v1)) ∧
    (parseVersion v1 = none →
      compareVersions v1 v2 = compareVersions ("0.0.0".toList) v2) := by
  obtain ⟨h1, h2, h3⟩ := compareVersions_char v1 v2
  refine ⟨h1, h2, h3, fun hno => compareVersions_congr ?_ v2⟩
  have : verTriple v1 = (0, 0, 0) := by
    unfold verTriple
    rw [hno]
    rfl
  rw [this]
  decide

/-- Witness for C8 at a concrete input: `"abc"` fails to parse and compares
exactly like `"0.0.0"`. -/
theorem compareVersions_spec_witness :
    parseVersion ("abc".toList) = none ∧
    compareVersions ("abc".toList) ("1.2.3".toList) =
      compareVersions ("0.0.0".toList) ("1.2.3".toList) :=
  ⟨by decide,
    (compareVersions_spec ("abc".toList) ("1.2.3".toList)).2.2.2 (by decide)⟩

/-- Counterexample for C8 as frozen: `"-1.2.3"` is not a dotted triple of
non-negative decimal integers, yet it does not compare like `"0.0.0"`:
`parseVersion` accepts the signed component and orders it below zero. -/
theorem compareVersions_counterexample :
    specNonNegTripleFormat ("-1.2.3".toList) = false ∧
    parseVersion ("-1.2.3".toList) = some (-1, 2, 3) ∧
    compareVersions ("-1.2.3".toList) ("0.0.0".toList) ≠
      compareVersions ("0.0.0".toList) ("0.0.0".toList) := by
  refine ⟨by decide, by decide, by decide⟩

/-! ### Splitting lemmas -/

theorem splitBy_ne_nil (p : Char → Bool) (s : GoStr) : splitBy p s ≠ [] := by
  cases s with
  | nil => simp [splitBy]
  | cons c cs =>
    unfold splitBy
    cases h : splitBy p cs with
    | nil => simp
    | cons l ls => split_ifs <;> simp

theorem splitBy_cons (p : Char → Bool) (c : Char) (cs : GoStr) :
    splitBy p (c :: cs) =
      (match splitBy p cs with
        | [] => [[]]
        | l :: ls => if p c then [] :: l :: ls else (c :: l) :: ls) := rfl

theorem splitBy_no_sep {p : Char → Bool} {a : GoStr}
    (ha : ∀ c ∈ a, ¬ p c) : splitBy p a = [a] := by
  induction a with
  | nil => rfl
  | cons c cs ih =>
    have hc : ¬ p c := ha c (List.mem_cons_self c cs)
    have ihh := ih (fun x hx => ha x (List.mem_cons_of_mem c hx))
    rw [splitBy_cons, ihh]
    simp [hc]

theorem splitBy_append_cons {p : Char → Bool} {a : GoStr} (sep : Char)
    (hsep : p sep) (b : GoStr) (ha : ∀ c ∈ a, ¬ p c) :
    splitBy p (a ++ sep :: b) = a :: splitBy p b := by
  induction a with
  | nil =>
    simp only [List.nil_append]
    rw [splitBy_cons]
    cases h : splitBy p b with
    | nil => exact absurd h (splitBy_ne_nil p b)
    | cons l ls => simp [hsep]
  | cons c cs ih =>
    have hc : ¬ p c := ha c (List.mem_cons_self c cs)
    have ihh := ih (fun x hx => ha x (List.mem_cons_of_mem c hx))
    simp only [List.cons_append]
    rw [splitBy_cons, ihh]
    simp [hc]

theorem splitBy_mem_no_sep (p : Char → Bool) :
    ∀ (s : GoStr), ∀ x ∈ splitBy p s, ∀ c ∈ x, ¬ p c := by
  intro s
  induction s with
  | nil =>
    intro x hx
    simp [splitBy] at hx
    subst hx
    simp
  | cons c cs ih =>
    intro x hx
    rw [splitBy_cons p c cs] at hx
    cases h : splitBy p cs with
    | nil => exact absurd h (splitBy_ne_nil p cs)
    | cons l ls =>
      rw [h] at hx
      dsimp only at hx
      by_cases hc : p c
      · rw [if_pos hc] at hx
        rcases List.mem_cons.mp hx with hx | hx
        · subst hx; simp
        · exact ih x (h ▸ hx)
      · rw [if_neg hc] at hx
        rcases List.mem_cons.mp hx with hx | hx
        · subst hx
          intro d hd
          rcases List.mem_cons.mp hd with hd | hd
          · subst hd; exact hc
          · exact ih l (h ▸ List.mem_cons_self l ls) d hd
        · exact ih x (h ▸ List.mem_cons_of_mem l hx)

theorem dropWhile_eq_self_of_head {α : Type} {p : α → Bool} {l : List α}
    (h : ∀ c, l.head? = some c → ¬ p c) : l.dropWhile p = l := by
  cases l with
  | nil => rfl
  | cons c cs =>
    have : ¬ p c := h c rfl
    simp [List.dropWhile, this]

/-! ### Blacklist file store (`ConfigManager` / `ModuleConfig`) -/

/-- Trailing carriage-return removal performed by `bufio.ScanLines` on each
line. -/
def dropCR (s : GoStr) : GoStr :=
  if s.getLast? = some '\r' then s.dropLast else s

/-- Model of scanning a file's contents with `bufio.Scanner` and
`bufio.ScanLines`: split at every newline, with no empty final token when the
content ends in a newline (or is empty), and a trailing `\r` stripped from
each line. -/
def scanLines (content : GoStr) : List GoStr :=
  if content = [] then []
  else
    let parts := goSplitOn '\n' content
    (if parts.getLast? = some [] then parts.dropLast else parts).map dropCR

/-- Model of `GetBlacklistedVersions`: collect the trimmed non-blank lines as
a set; the set is represented by the duplicate-free list of first
occurrences. -/
def getBlacklistedVersions (content : GoStr) : List GoStr :=
  (scanLines content).foldl
    (fun acc line =>
      let line := goTrimSpace line
      if line = [] then acc
      else if line ∈ acc then acc else acc ++ [line]) []

/-- The version order used to sort the blacklist file. -/
def verLe (a b : GoStr) : Prop := compareVersions a b ≤ 0

instance : DecidableRel verLe := fun a b => by unfold verLe; infer_instance

instance : IsTotal GoStr verLe := ⟨compareVersions_total⟩

instance : IsTrans GoStr verLe := ⟨fun _ _ _ => compareVersions_le_trans⟩

/-- Newline-join of a list of lines. -/
def joinNl : List GoStr → GoStr
  | [] => []
  | [x] => x
  | x :: xs => x ++ '\n' :: joinNl xs

/-- `strings.Join(lines, "\n")` plus the trailing newline written iff the
list is non-empty. -/
def renderLines (l : List GoStr) : GoStr :=
  joinNl l ++ (if l = [] then [] else ['\n'])

/-- Model of `writeBlacklistFile`: sort ascending by the version order and
write one version per line with a trailing newline iff non-empty.
`sort.Slice` with the strict comparator is modelled by a stable insertion
sort with the non-strict order, one of its admissible outcomes. -/
def writeBlacklistFile (versions : List GoStr) : GoStr :=
  renderLines (List.insertionSort verLe versions)

/-- Model of `AddToBlacklist` acting on the blacklist file contents. -/
def addToBlacklist (file : GoStr) (version : GoStr) : GoStr :=
  let blacklist := getBlacklistedVersions file
  writeBlacklistFile (if version ∈ blacklist then blacklist
    else blacklist ++ [version])

/-- Model of `RemoveFromBlacklist` acting on the blacklist file contents:
`none` models the error return (the file is not written). -/
def removeFromBlacklist (file : GoStr) (version : GoStr) : Option GoStr :=
  let blacklist := getBlacklistedVersions file
  if version ∈ blacklist then
    some (writeBlacklistFile (blacklist.filter (· ≠ version)))
  else none

/-- A string that survives a round trip through the blacklist file: non-empty,
newline-free, and without leading or trailing whitespace. Every version
string is of this shape. -/
def CleanToken (v : GoStr) : Prop :=
  v ≠ [] ∧ '\n' ∉ v ∧ (∀ c, v.head? = some c → ¬ isGoSpace c) ∧
    (∀ c, v.getLast? = some c → ¬ isGoSpace c)

instance (v : GoStr) : Decidable (CleanToken v) := by
  unfold CleanToken; infer_instance

theorem goTrimSpace_of_clean {v : GoStr} (h : CleanToken v) :
    goTrimSpace v = v := by
  obtain ⟨hne, _, hhead, hlast⟩ := h
  unfold goTrimSpace
  rw [dropWhile_eq_self_of_head hhead]
  rw [dropWhile_eq_self_of_head (fun c hc => hlast c ?_)]
  · exact v.reverse_reverse
  · rw [← List.head?_reverse]
    exact hc

theorem dropCR_of_clean {v : GoStr} (h : CleanToken v) : dropCR v = v := by
  unfold dropCR
  rw [if_neg]
  intro hcr
  exact h.2.2.2 '\r' hcr (by decide)

theorem joinNl_cons_cons (x y : GoStr) (ys : List GoStr) :
    joinNl (x :: y :: ys) = x ++ '\n' :: joinNl (y :: ys) := rfl

theorem goSplitOn_joinNl {l : List GoStr} (hnl : ∀ x ∈ l, '\n' ∉ x)
    (hne : l ≠ []) :
    goSplitOn '\n' (joinNl l ++ ['\n']) = l ++ [[]] := by
  induction l with
  | nil => exact absurd rfl hne
  | cons x xs ih =>
    cases xs with
    | nil =>
      show goSplitOn '\n' (x ++ '\n' :: []) = [x, []]
      unfold goSplitOn
      rw [splitBy_append_cons '\n' (by simp) [] ?_]
      · rfl
      · intro c hc
        simp only [decide_eq_true_eq]
        exact fun he => hnl x (List.mem_cons_self x []) (he ▸ hc)
    | cons y ys =>
      rw [joinNl_cons_cons]
      have : (x ++ '\n' :: joinNl (y :: ys)) ++ ['\n'] =
          x ++ '\n' :: (joinNl (y :: ys) ++ ['\n']) := by simp
      rw [this]
      unfold goSplitOn
      rw [splitBy_append_cons '\n' (by simp) _ ?_]
      · have := ih (fun z hz => hnl z (List.mem_cons_of_mem x hz)) (by simp)
        unfold goSplitOn at this
        rw [this]
        rfl
      · intro c hc
        simp only [decide_eq_true_eq]
        exact fun he => hnl x (List.mem_cons_self x (y :: ys)) (he ▸ hc)

theorem renderLines_nil : renderLines [] = [] := rfl

theorem renderLines_ne_nil {l : List GoStr} (h : l ≠ []) :
    renderLines l ≠ [] := by
  unfold renderLines
  rw [if_neg h]
  simp

theorem scanLines_renderLines {l : List GoStr}
    (hclean : ∀ x ∈ l, CleanToken x) :
    scanLines (renderLines l) = l := by
  cases hl : l with
  | nil => rfl
  | cons x xs =>
    rw [← hl]
    have hlne : l ≠ [] := by rw [hl]; simp
    unfold scanLines
    rw [if_neg (renderLines_ne_nil hlne)]
    have hsplit : goSplitOn '\n' (renderLines l) = l ++ [[]] := by
      unfold renderLines
      rw [if_neg hlne]
      exact goSplitOn_joinNl (fun z hz => (hclean z hz).2.1) hlne
    dsimp only
    rw [hsplit]
    rw [List.getLast?_concat, if_pos rfl, List.dropLast_concat]
    rw [List.map_congr_left (fun z hz => dropCR_of_clean (hclean z hz))]
    exact List.map_id l

theorem foldl_insert_of_clean :
    ∀ (l : List GoStr) (acc : List GoStr), (∀ x ∈ l, CleanToken x) →
      l.Nodup → (∀ x ∈ l, x ∉ acc) →
      l.foldl (fun acc line =>
        let line := goTrimSpace line
        if line = [] then acc
        else if line ∈ acc then acc else acc ++ [line]) acc = acc ++ l
  | [], acc, _, _, _ => by simp
  | x :: xs, acc, hclean, hnd, hdis => by
    have hcx := hclean x (List.mem_cons_self x xs)
    simp only [List.foldl_cons]
    rw [show (let line := goTrimSpace x;
        if line = [] then acc
        else if line ∈ acc then acc else acc ++ [line]) = acc ++ [x] from ?_]
    · rw [foldl_insert_of_clean xs (acc ++ [x])
        (fun z hz => hclean z (List.mem_cons_of_mem x hz))
        (List.Nodup.of_cons hnd) ?_]
      · simp
      · intro z hz hmem
        rcases List.mem_append.mp hmem with hm | hm
        · exact hdis z (List.mem_cons_of_mem x hz) hm
        · rw [List.mem_singleton] at hm
          subst hm
          exact (List.nodup_cons.mp hnd).1 hz
    · show (let line := goTrimSpace x;
        if line = [] then acc
        else if line ∈ acc then acc else acc ++ [line]) = acc ++ [x]
      rw [show goTrimSpace x = x from goTrimSpace_of_clean hcx]
      rw [if_neg hcx.1, if_neg (hdis x (List.mem_cons_self x xs))]

/-- Reading back a written blacklist file recovers exactly the written list
of versions. -/
theorem getBlacklistedVersions_renderLines {l : List GoStr}
    (hclean : ∀ x ∈ l, CleanToken x) (hnd : l.Nodup) :
    getBlacklistedVersions (renderLines l) = l := by
  unfold getBlacklistedVersions
  rw [scanLines_renderLines hclean]
  have := foldl_insert_of_clean l [] hclean hnd (by simp)
  rw [this]
  simp

theorem getBlacklistedVersions_nodup (content : GoStr) :
    (getBlacklistedVersions content).Nodup := by
  unfold getBlacklistedVersions
  generalize scanLines content = lines
  suffices h : ∀ (l : List GoStr) (acc : List GoStr), acc.Nodup →
      (l.foldl (fun acc line =>
        let line := goTrimSpace line
        if line = [] then acc
        else if line ∈ acc then acc else acc ++ [line]) acc).Nodup by
    exact h lines [] List.nodup_nil
  intro l
  induction l with
  | nil => intro acc h; simpa using h
  | cons x xs ih =>
    intro acc hacc
    simp only [List.foldl_cons]
    apply ih
    dsimp only
    split_ifs with h1 h2
    · exact hacc
    · exact hacc
    · exact List.Nodup.append hacc (List.nodup_singleton _)
        (by simpa using h2)

theorem head_dropWhile_not {p : Char → Bool} :
    ∀ (l : GoStr) (c : Char), (l.dropWhile p).head? = some c → ¬ p c := by
  intro l
  induction l with
  | nil => intro c hc; simp [List.dropWhile] at hc
  | cons x xs ih =>
    intro c hc
    by_cases hx : p x
    · rw [List.dropWhile_cons, if_pos hx] at hc
      exact ih c hc
    · rw [List.dropWhile_cons, if_neg hx] at hc
      simp at hc
      exact hc ▸ hx

theorem getLast?_dropWhile {p : Char → Bool} :
    ∀ {l : GoStr}, l.dropWhile p ≠ [] → (l.dropWhile p).getLast? = l.getLast?
  | [], h => by simp [List.dropWhile] at h
  | x :: xs, h => by
    by_cases hx : p x
    · rw [List.dropWhile_cons, if_pos hx] at h ⊢
      have hxs : xs ≠ [] := by
        intro h0
        rw [h0] at h
        simp [List.dropWhile] at h
      obtain ⟨y, ys, rfl⟩ := List.exists_cons_of_ne_nil hxs
      rw [List.getLast?_cons_cons]
      exact getLast?_dropWhile h
    · rw [List.dropWhile_cons, if_neg hx]

theorem goTrimSpace_clean_of_ne_nil {v : GoStr}
    (hnl : '\n' ∉ v) (hne : goTrimSpace v ≠ []) :
    CleanToken (goTrimSpace v) := by
  refine ⟨hne, ?_, ?_, ?_⟩
  · intro hmem
    apply hnl
    unfold goTrimSpace at hmem
    rw [List.mem_reverse] at hmem
    have h1 := (List.dropWhile_sublist (l := (v.dropWhile isGoSpace).reverse)
      (p := isGoSpace)).mem hmem
    rw [List.mem_reverse] at h1
    exact (List.dropWhile_sublist (l := v) (p := isGoSpace)).mem h1
  · intro c hc
    unfold goTrimSpace at hc
    rw [List.head?_reverse] at hc
    have hwne : ((v.dropWhile isGoSpace).reverse.dropWhile isGoSpace) ≠ [] := by
      intro h0
      apply hne
      unfold goTrimSpace
      rw [h0]
      rfl
    rw [getLast?_dropWhile hwne, List.getLast?_reverse] at hc
    exact head_dropWhile_not _ c hc
  · intro c hc
    unfold goTrimSpace at hc
    rw [List.getLast?_reverse] at hc
    exact head_dropWhile_not _ c hc

theorem mem_scanLines_no_newline {content : GoStr} {x : GoStr}
    (hx : x ∈ scanLines content) : '\n' ∉ x := by
  unfold scanLines at hx
  split_ifs at hx with h0
  · simp at hx
  · dsimp only at hx
    rw [List.mem_map] at hx
    obtain ⟨y, hy, rfl⟩ := hx
    have hyparts : y ∈ goSplitOn '\n' content := by
      split_ifs at hy with h1
      · exact (List.dropLast_sublist _).mem hy
      · exact hy
    have hno : ∀ c ∈ y, ¬ (c = '\n' : Bool) :=
      splitBy_mem_no_sep _ content y hyparts
    intro hmem
    unfold dropCR at hmem
    split_ifs at hmem with h2
    · exact absurd (by simp) (hno '\n' ((List.dropLast_sublist y).mem hmem))
    · exact absurd (by simp) (hno '\n' hmem)

theorem getBlacklistedVersions_clean (content : GoStr) :
    ∀ v ∈ getBlacklistedVersions content, CleanToken v := by
  unfold getBlacklistedVersions
  have hlines := fun x (hx : x ∈ scanLines content) =>
    mem_scanLines_no_newline hx
  generalize hsc : scanLines content = lines at hlines
  suffices h : ∀ (l : List GoStr) (acc : List GoStr),
      (∀ x ∈ l, '\n' ∉ x) → (∀ v ∈ acc, CleanToken v) →
      ∀ v ∈ l.foldl (fun acc line =>
        let line := goTrimSpace line
        if line = [] then acc
        else if line ∈ acc then acc else acc ++ [line]) acc, CleanToken v by
    exact h lines [] hlines (by simp)
  intro l
  induction l with
  | nil => intro acc _ hacc; simpa using hacc
  | cons x xs ih =>
    intro acc hl hacc
    simp only [List.foldl_cons]
    apply ih
    · exact fun z hz => hl z (List.mem_cons_of_mem x hz)
    · intro v hv
      split_ifs at hv with h1 h2
      · exact hacc v hv
      · exact hacc v hv
      · rcases List.mem_append.mp hv with hm | hm
        · exact hacc v hm
        · rw [List.mem_singleton] at hm
          subst hm
          exact goTrimSpace_clean_of_ne_nil (hl x (List.mem_cons_self x xs)) h1

theorem getBlacklistedVersions_writeBlacklistFile {l : List GoStr}
    (hclean : ∀ x ∈ l, CleanToken x) (hnd : l.Nodup) :
    getBlacklistedVersions (writeBlacklistFile l) =
      List.insertionSort verLe l := by
  unfold writeBlacklistFile
  apply getBlacklistedVersions_renderLines
  · intro x hx
    exact hclean x ((List.mem_insertionSort verLe).mp hx)
  · exact (List.perm_insertionSort verLe l).symm.nodup hnd

/-- C9: `RemoveFromBlacklist` returns an error exactly when the version is
not a member of the blacklist, and in that case the file is not written; when
the version is a member, the file is rewritten to the blacklist without it. -/
theorem removeFromBlacklist_spec (file version : GoStr) :
    (version ∉ getBlacklistedVersions file →
      removeFromBlacklist file version = none) ∧
    (version ∈ getBlacklistedVersions file →
      ∃ file', removeFromBlacklist file version = some file' ∧
        ∀ w, w ∈ getBlacklistedVersions file' ↔
          (w ∈ getBlacklistedVersions file ∧ w ≠ version)) := by
  constructor
  · intro habs
    unfold removeFromBlacklist
    rw [if_neg habs]
  · intro hmem
    unfold removeFromBlacklist
    rw [if_pos hmem]
    refine ⟨_, rfl, ?_⟩
    intro w
    rw [getBlacklistedVersions_writeBlacklistFile ?_ ?_]
    · rw [List.mem_insertionSort, List.mem_filter]
      simp
    · intro x hx
      exact getBlacklistedVersions_clean file x (List.mem_of_mem_filter hx)
    · exact (getBlacklistedVersions_nodup file).filter _

/-- Witness for C9 at a concrete input: removing an absent version errors and
removing a present one rewrites the file without it. -/
theorem removeFromBlacklist_spec_witness :
    ("9.9.9".toList ∉ getBlacklistedVersions ("1.2.2\n".toList)) ∧
    removeFromBlacklist ("1.2.2\n".toList) ("9.9.9".toList) = none :=
  ⟨by decide,
    (removeFromBlacklist_spec ("1.2.2\n".toList) ("9.9.9".toList)).1
      (by decide)⟩

/-! ### Blacklist operation sequences (C4) -/

/-- An operation on a module's blacklist. -/
inductive BLOp
  | add (version : GoStr)
  | remove (version : GoStr)

def BLOp.version : BLOp → GoStr
  | .add v => v
  | .remove v => v

/-- Running one blacklist operation against the file contents. A failing
remove leaves the file untouched. -/
def applyBLOp (file : GoStr) : BLOp → GoStr
  | .add v => addToBlacklist file v
  | .remove v => (removeFromBlacklist file v).getD file

def applyBLOps (ops : List BLOp) (file : GoStr) : GoStr :=
  ops.foldl applyBLOp file

/-- The net set of members after a sequence of set inserts and removes,
represented as a duplicate-free list in insertion order. -/
def netMembersFrom (ops : List BLOp) (s : List GoStr) : List GoStr :=
  ops.foldl (fun s op =>
    match op with
    | .add v => if v ∈ s then s else s ++ [v]
    | .remove v => s.filter (· ≠ v)) s

def netMembers (ops : List BLOp) : List GoStr :=
  netMembersFrom ops []

/-- The blacklist-file invariant: the file renders a duplicate-free,
ascending list of clean tokens whose members are exactly `net`. -/
def BLInv (file : GoStr) (net : List GoStr) : Prop :=
  ∃ l, file = renderLines l ∧ l.Nodup ∧ l.Sorted verLe ∧
    (∀ x ∈ l, CleanToken x) ∧ (∀ w, w ∈ l ↔ w ∈ net)

theorem blInv_add {file : GoStr} {net : List GoStr} {v : GoStr}
    (hinv : BLInv file net) (hv : CleanToken v) :
    BLInv (addToBlacklist file v) (if v ∈ net then net else net ++ [v]) := by
  obtain ⟨l, hfile, hnd, hsort, hclean, hmem⟩ := hinv
  have hbl : getBlacklistedVersions file = l := by
    rw [hfile]
    exact getBlacklistedVersions_renderLines hclean hnd
  set l1 : List GoStr := if v ∈ l then l else l ++ [v] with hl1
  have hl1nd : l1.Nodup := by
    rw [hl1]
    split_ifs with h
    · exact hnd
    · exact List.Nodup.append hnd (List.nodup_singleton v) (by simpa using h)
  have hl1clean : ∀ x ∈ l1, CleanToken x := by
    rw [hl1]
    intro x hx
    split_ifs at hx with h
    · exact hclean x hx
    · rcases List.mem_append.mp hx with hm | hm
      · exact hclean x hm
      · rw [List.mem_singleton] at hm
        exact hm ▸ hv
  have hl1mem : ∀ w, w ∈ l1 ↔ (w ∈ l ∨ w = v) := by
    intro w
    rw [hl1]
    split_ifs with h
    · constructor
      · exact fun hw => Or.inl hw
      · rintro (hw | rfl)
        · exact hw
        · exact h
    · rw [List.mem_append, List.mem_singleton]
  refine ⟨List.insertionSort verLe l1, ?_, ?_, ?_, ?_, ?_⟩
  · unfold addToBlacklist writeBlacklistFile
    simp only [hbl]
  · exact (List.perm_insertionSort verLe l1).symm.nodup hl1nd
  · exact List.sorted_insertionSort verLe l1
  · intro x hx
    exact hl1clean x ((List.mem_insertionSort verLe).mp hx)
  · intro w
    rw [List.mem_insertionSort, hl1mem w, hmem w]
    split_ifs with h
    · constructor
      · exact fun hw => hw.elim id (fun he => he ▸ h)
      · exact Or.inl
    · rw [List.mem_append, List.mem_singleton]

theorem blInv_remove {file : GoStr} {net : List GoStr} {v : GoStr}
    (hinv : BLInv file net) :
    BLInv (applyBLOp file (BLOp.remove v)) (net.filter (· ≠ v)) := by
  obtain ⟨l, hfile, hnd, hsort, hclean, hmem⟩ := hinv
  have hbl : getBlacklistedVersions file = l := by
    rw [hfile]
    exact getBlacklistedVersions_renderLines hclean hnd
  show BLInv ((removeFromBlacklist file v).getD file) _
  unfold removeFromBlacklist
  rw [hbl]
  by_cases hvin : v ∈ l
  · rw [if_pos hvin]
    set l1 := l.filter (· ≠ v) with hl1
    have hl1nd : l1.Nodup := hnd.filter _
    have hl1clean : ∀ x ∈ l1, CleanToken x :=
      fun x hx => hclean x (List.mem_of_mem_filter hx)
    refine ⟨List.insertionSort verLe l1, rfl, ?_, ?_, ?_, ?_⟩
    · exact (List.perm_insertionSort verLe l1).symm.nodup hl1nd
    · exact List.sorted_insertionSort verLe l1
    · intro x hx
      exact hl1clean x ((List.mem_insertionSort verLe).mp hx)
    · intro w
      rw [List.mem_insertionSort, hl1, List.mem_filter, List.mem_filter]
      rw [hmem w]
  · rw [if_neg hvin]
    refine ⟨l, hfile, hnd, hsort, hclean, ?_⟩
    intro w
    rw [List.mem_filter, hmem w]
    simp only [decide_not, Bool.not_eq_eq_eq_not, Bool.not_true,
      decide_eq_false_iff_not, Decidable.not_not]
    constructor
    · intro hw
      refine ⟨hw, ?_⟩
      intro he
      subst he
      exact hvin ((hmem w).mpr hw)
    · exact fun hw => hw.1

theorem blInv_applyBLOps :
    ∀ (ops : List BLOp) (file : GoStr) (net : List GoStr),
      (∀ op ∈ ops, CleanToken op.version) → BLInv file net →
      BLInv (applyBLOps ops file) (netMembersFrom ops net)
  | [], file, net, _, hinv => hinv
  | op :: ops, file, net, hclean, hinv => by
    have hop := hclean op (List.mem_cons_self op ops)
    have hrest := fun o (ho : o ∈ ops) =>
      hclean o (List.mem_cons_of_mem op ho)
    show BLInv (applyBLOps ops (applyBLOp file op))
      (netMembersFrom ops _)
    cases op with
    | add v =>
      exact blInv_applyBLOps ops _ _ hrest (blInv_add hinv hop)
    | remove v =>
      exact blInv_applyBLOps ops _ _ hrest (blInv_remove hinv)

/-- C4: after any finite sequence of `AddToBlacklist` and
`RemoveFromBlacklist` operations starting from an empty blacklist file, the
file renders exactly the net set of members, duplicate-free, one per line in
ascending version order, with a trailing newline iff the set is non-empty;
in particular adding 1.2.10, 1.2.2, 1.2.2 and removing 1.2.10 leaves exactly
`"1.2.2\n"`. -/
theorem blacklist_spec (ops : List BLOp)
    (hclean : ∀ op ∈ ops, CleanToken op.version) :
    (∃ l : List GoStr, applyBLOps ops [] = renderLines l ∧ l.Nodup ∧
      l.Sorted verLe ∧ (∀ w, w ∈ l ↔ w ∈ netMembers ops)) ∧
    applyBLOps [BLOp.add ("1.2.10".toList), BLOp.add ("1.2.2".toList),
        BLOp.add ("1.2.2".toList), BLOp.remove ("1.2.10".toList)] [] =
      "1.2.2\n".toList := by
  constructor
  · have hbase : BLInv [] [] := by
      refine ⟨[], rfl, List.nodup_nil, List.sorted_nil, by simp, by simp⟩
    obtain ⟨l, h1, h2, h3, _, h5⟩ := blInv_applyBLOps ops [] [] hclean hbase
    exact ⟨l, h1, h2, h3, h5⟩
  · decide

/-- Witness for C4 at the concrete example sequence from the specification. -/
theorem blacklist_spec_witness :
    CleanToken ("1.2.2".toList) ∧
    applyBLOps [BLOp.add ("1.2.10".toList), BLOp.add ("1.2.2".toList),
        BLOp.add ("1.2.2".toList), BLOp.remove ("1.2.10".toList)] [] =
      "1.2.2\n".toList :=
  ⟨by decide,
    (blacklist_spec [BLOp.add ("1.2.10".toList), BLOp.add ("1.2.2".toList),
        BLOp.add ("1.2.2".toList), BLOp.remove ("1.2.10".toList)]
      (by decide)).2⟩

/-! ### Version strings are clean tokens -/

theorem goAtoiDigits_isSome_all {neg : Bool} {ds : GoStr}
    (h : (goAtoiDigits neg ds).isSome) : ds ≠ [] ∧ ds.all isDigitB := by
  unfold goAtoiDigits at h
  by_cases hc : ds = [] ∨ ¬ ds.all isDigitB
  · rw [if_pos hc] at h; simp at h
  · refine ⟨fun h0 => hc (Or.inl h0), ?_⟩
    by_contra h0
    exact hc (Or.inr h0)

theorem goAtoi_isSome_chars {s : GoStr} (h : (goAtoi s).isSome) :
    ∀ c ∈ s, c = '+' ∨ c = '-' ∨ isDigitB c := by
  unfold goAtoi at h
  cases s with
  | nil => simp at h
  | cons c0 cs =>
    dsimp only at h
    intro c hc
    by_cases hminus : c0 = '-'
    · rw [if_pos hminus] at h
      have hall := (goAtoiDigits_isSome_all h).2
      rcases List.mem_cons.mp hc with rfl | hc
      · exact Or.inr (Or.inl hminus)
      · exact Or.inr (Or.inr (List.all_eq_true.mp hall c hc))
    · rw [if_neg hminus] at h
      by_cases hplus : c0 = '+'
      · rw [if_pos hplus] at h
        have hall := (goAtoiDigits_isSome_all h).2
        rcases List.mem_cons.mp hc with rfl | hc
        · exact Or.inl hplus
        · exact Or.inr (Or.inr (List.all_eq_true.mp hall c hc))
      · rw [if_neg hplus] at h
        have hall := (goAtoiDigits_isSome_all h).2
        exact Or.inr (Or.inr (List.all_eq_true.mp hall c hc))

theorem char_mem_splitBy {p : Char → Bool} :
    ∀ {s : GoStr} {c : Char}, c ∈ s →
      p c = true ∨ ∃ x ∈ splitBy p s, c ∈ x := by
  intro s
  induction s with
  | nil => intro c hc; simp at hc
  | cons c0 cs ih =>
    intro c hc
    cases hsp : splitBy p cs with
    | nil => exact absurd hsp (splitBy_ne_nil p cs)
    | cons l ls =>
      rcases List.mem_cons.mp hc with hc | hc
      · subst hc
        by_cases hp : p c
        · exact Or.inl hp
        · refine Or.inr ⟨c :: l, ?_, List.mem_cons_self c l⟩
          rw [splitBy_cons, hsp]
          simp [hp]
      · rcases ih hc with hp | ⟨x, hx, hcx⟩
        · exact Or.inl hp
        · rw [hsp] at hx
          by_cases hp0 : p c0
          · refine Or.inr ⟨x, ?_, hcx⟩
            rw [splitBy_cons, hsp]
            simp only [if_pos hp0]
            exact List.mem_cons_of_mem [] hx
          · rcases List.mem_cons.mp hx with hx | hx
            · refine Or.inr ⟨c0 :: l, ?_, ?_⟩
              · rw [splitBy_cons, hsp]
                simp [hp0]
              · exact List.mem_cons_of_mem c0 (hx ▸ hcx)
            · refine Or.inr ⟨x, ?_, hcx⟩
              rw [splitBy_cons, hsp]
              simp only [if_neg hp0]
              exact List.mem_cons_of_mem _ hx

theorem not_space_of_versionChar {c : Char}
    (h : c = '.' ∨ c = '+' ∨ c = '-' ∨ isDigitB c) : ¬ isGoSpace c := by
  intro hsp
  rcases h with rfl | rfl | rfl | hd
  · revert hsp; decide
  · revert hsp; decide
  · revert hsp; decide
  · unfold isGoSpace at hsp
    simp only [Bool.or_eq_true, decide_eq_true_eq] at hsp
    rcases hsp with rfl | rfl | rfl | rfl | rfl | rfl <;> revert hd <;> decide

theorem parseVersion_isSome_parts {v : GoStr} (h : (parseVersion v).isSome) :
    ∃ p1 p2 p3, goSplitOn '.' v = [p1, p2, p3] ∧
      (goAtoi p1).isSome ∧ (goAtoi p2).isSome ∧ (goAtoi p3).isSome := by
  unfold parseVersion at h
  cases hsp : goSplitOn '.' v with
  | nil => rw [hsp] at h; simp at h
  | cons p1 rest =>
    rw [hsp] at h
    cases rest with
    | nil => simp at h
    | cons p2 rest2 =>
      cases rest2 with
      | nil => simp at h
      | cons p3 rest3 =>
        cases rest3 with
        | cons p4 rest4 => simp at h
        | nil =>
          dsimp only at h
          refine ⟨p1, p2, p3, rfl, ?_, ?_, ?_⟩ <;>
            [cases ha : goAtoi p1; cases ha : goAtoi p2; cases ha : goAtoi p3] <;>
            rw [ha] at h <;>
            cases goAtoi p1 <;> cases goAtoi p2 <;> cases goAtoi p3 <;>
              simp_all

theorem versionChars_of_parseVersion_isSome {v : GoStr}
    (h : (parseVersion v).isSome) :
    ∀ c ∈ v, c = '.' ∨ c = '+' ∨ c = '-' ∨ isDigitB c := by
  obtain ⟨p1, p2, p3, hsp, h1, h2, h3⟩ := parseVersion_isSome_parts h
  intro c hc
  rcases char_mem_splitBy (p := fun x => x = '.') hc with hp | ⟨x, hx, hcx⟩
  · simp only [decide_eq_true_eq] at hp
    exact Or.inl hp
  · unfold goSplitOn at hsp
    rw [hsp] at hx
    have hatoi : (goAtoi x).isSome := by
      rcases List.mem_cons.mp hx with rfl | hx
      · exact h1
      · rcases List.mem_cons.mp hx with rfl | hx
        · exact h2
        · rw [List.mem_singleton] at hx
          exact hx ▸ h3
    rcases goAtoi_isSome_chars hatoi c hcx with h' | h' | h'
    · exact Or.inr (Or.inl h')
    · exact Or.inr (Or.inr (Or.inl h'))
    · exact Or.inr (Or.inr (Or.inr h'))

/-- Version strings that parse survive the blacklist-file round trip. -/
theorem cleanToken_of_parseVersion_isSome {v : GoStr}
    (h : (parseVersion v).isSome) : CleanToken v := by
  have hchars := versionChars_of_parseVersion_isSome h
  have hnospace : ∀ c ∈ v, ¬ isGoSpace c :=
    fun c hc => not_space_of_versionChar (hchars c hc)
  refine ⟨ne_nil_of_parseVersion_isSome h, ?_, ?_, ?_⟩
  · intro hmem
    exact hnospace '\n' hmem (by decide)
  · intro c hc
    exact hnospace c (List.mem_of_mem_head? hc)
  · intro c hc
    exact hnospace c (List.mem_of_getLast?_eq_some hc)

theorem compareVersions_self (a : GoStr) : compareVersions a a = 0 :=
  (compareVersions_char a a).2.1.mpr rfl

/-! ### Orchestrator phase-0 self-update (`main.go`) -/

/-- A directory entry of `$HOME/bin` as seen by `os.ReadDir`. -/
structure BinEntry where
  name : GoStr
  isDir : Bool

/-- The file-name stem of versioned orchestrator binaries. -/
def orchBinStem : GoStr := "shem-orchestrator-".toList

/-- The loop body of `findNewestOrchestratorVersion`: skip directories,
non-matching names, unparsable versions and blacklisted versions; otherwise
keep the larger of the candidate and the current best. -/
def newestStep (blacklist : List GoStr) (newest : GoStr) (e : BinEntry) :
    GoStr :=
  if e.isDir then newest
  else if ¬ orchBinStem.isPrefixOf e.name then newest
  else
    let version := e.name.drop orchBinStem.length
    if (parseVersion version).isNone then newest
    else if version ∈ blacklist then newest
    else if newest = [] ∨ 0 < compareVersions version newest then version
    else newest

/-- Model of `findNewestOrchestratorVersion`: the highest non-blacklisted
version among the `shem-orchestrator-<version>` files of the bin directory,
or the empty string when there is none. -/
def findNewestOrchestratorVersion (entries : List BinEntry)
    (blacklist : List GoStr) : GoStr :=
  entries.foldl (newestStep blacklist) []

/-- What happened to the `--verification-run` child spawned by
`executeVerificationRun`: the spawn failed, the wait failed for a reason
other than a non-zero exit, or the child exited with the given code. -/
inductive ChildOutcome
  | startFailed
  | waitFailed
  | exited (code : Nat)

/-- The exit code `executeVerificationRun` passes to `os.Exit`: the child's
exit code, `0` when the child exits cleanly, `1` on spawn or wait failure. -/
def childExitCode : ChildOutcome → Nat
  | .startFailed => 1
  | .waitFailed => 1
  | .exited code => code

inductive Phase0Result
  | proceed
  | runVerification (binaryName : GoStr) (exitCode : Nat)
deriving DecidableEq

/-- Model of the non-verification startup phase of `main` together with
`executeVerificationRun`: scan the bin entries for the newest non-blacklisted
orchestrator binary; if it is newer than the compiled-in version, add it to
the on-disk blacklist and then run it with `--verification-run`, exiting with
the child's code; otherwise (and always under `--verification-run`) proceed
to the normal run. The pair returned is the outcome and the final contents of
the orchestrator's blacklist file. The error path in which the blacklist
write itself fails is not modelled (the file write always succeeds here). -/
def mainPhase0 (verificationRun : Bool) (entries : List BinEntry)
    (ownVersion : GoStr) (blacklistFile : GoStr) (child : ChildOutcome) :
    Phase0Result × GoStr :=
  if verificationRun then (.proceed, blacklistFile)
  else
    let blacklist := getBlacklistedVersions blacklistFile
    let newestVersion := findNewestOrchestratorVersion entries blacklist
    if newestVersion ≠ [] ∧ 0 < compareVersions newestVersion ownVersion then
      (.runVerification (orchBinStem ++ newestVersion) (childExitCode child),
        addToBlacklist blacklistFile newestVersion)
    else (.proceed, blacklistFile)

/-- A version offered by a `shem-orchestrator-<version>` file of the bin
directory. -/
def OrchCandidate (entries : List BinEntry) (v : GoStr) : Prop :=
  ∃ e ∈ entries, e.isDir = false ∧ e.name = orchBinStem ++ v ∧
    (parseVersion v).isSome

/-- A candidate that is neither blacklisted nor at or below the compiled-in
version: exactly what phase 0 must pick up. -/
def Phase0Eligible (entries : List BinEntry) (blacklist : List GoStr)
    (ownVersion : GoStr) (v : GoStr) : Prop :=
  OrchCandidate entries v ∧ v ∉ blacklist ∧ 0 < compareVersions v ownVersion

theorem orchCandidate_eq {e : BinEntry} {v : GoStr}
    (hname : e.name = orchBinStem ++ v) :
    v = e.name.drop orchBinStem.length := by
  rw [hname, List.drop_left]

theorem orchCandidate_cons_elim {e : BinEntry} {l : List BinEntry} {v : GoStr}
    (h : OrchCandidate (e :: l) v) :
    (e.isDir = false ∧ e.name = orchBinStem ++ v ∧ (parseVersion v).isSome) ∨
      OrchCandidate l v := by
  obtain ⟨e', he', hdir, hname, hparse⟩ := h
  rcases List.mem_cons.mp he' with rfl | he'
  · exact Or.inl ⟨hdir, hname, hparse⟩
  · exact Or.inr ⟨e', he', hdir, hname, hparse⟩

theorem orchCandidate_cons_of_tail {e : BinEntry} {l : List BinEntry}
    {v : GoStr} (h : OrchCandidate l v) : OrchCandidate (e :: l) v := by
  obtain ⟨e', he', rest⟩ := h
  exact ⟨e', List.mem_cons_of_mem e he', rest⟩

theorem newestFold_inv (blacklist : List GoStr) :
    ∀ (l : List BinEntry) (acc : GoStr),
      (l.foldl (newestStep blacklist) acc = acc ∨
        (OrchCandidate l (l.foldl (newestStep blacklist) acc) ∧
          l.foldl (newestStep blacklist) acc ∉ blacklist)) ∧
      (∀ v, OrchCandidate l v → v ∉ blacklist →
        l.foldl (newestStep blacklist) acc ≠ [] ∧
          compareVersions v (l.foldl (newestStep blacklist) acc) ≤ 0) ∧
      (acc ≠ [] → l.foldl (newestStep blacklist) acc ≠ [] ∧
        compareVersions acc (l.foldl (newestStep blacklist) acc) ≤ 0)
  | [], acc => by
    simp only [List.foldl_nil]
    refine ⟨by simp, ?_, ?_⟩
    · intro v hv
      obtain ⟨e, he, _⟩ := hv
      simp at he
    · intro h
      exact ⟨h, by rw [compareVersions_self]⟩
  | e :: l, acc => by
    simp only [List.foldl_cons]
    -- name the candidate version offered by this entry
    by_cases hdir : e.isDir
    · have hstep : newestStep blacklist acc e = acc := by
        unfold newestStep
        rw [if_pos hdir]
      rw [hstep]
      obtain ⟨ih1, ih2, ih3⟩ := newestFold_inv blacklist l acc
      refine ⟨?_, ?_, ih3⟩
      · rcases ih1 with h | h
        · exact Or.inl h
        · exact Or.inr ⟨orchCandidate_cons_of_tail h.1, h.2⟩
      · intro v hv hbl
        rcases orchCandidate_cons_elim hv with hc | hc
        · rw [hc.1] at hdir; simp at hdir
        · exact ih2 v hc hbl
    · by_cases hpre : orchBinStem.isPrefixOf e.name
      · set version := e.name.drop orchBinStem.length with hver
        by_cases hparse : (parseVersion version).isNone
        · have hstep : newestStep blacklist acc e = acc := by
            unfold newestStep
            rw [if_neg hdir, if_neg (by rwa [not_not]), if_pos hparse]
          rw [hstep]
          obtain ⟨ih1, ih2, ih3⟩ := newestFold_inv blacklist l acc
          refine ⟨?_, ?_, ih3⟩
          · rcases ih1 with h | h
            · exact Or.inl h
            · exact Or.inr ⟨orchCandidate_cons_of_tail h.1, h.2⟩
          · intro v hv hbl
            rcases orchCandidate_cons_elim hv with hc | hc
            · have hveq : v = version := (orchCandidate_eq hc.2.1).trans hver.symm
              rw [Option.isNone_iff_eq_none] at hparse
              have h2 := hc.2.2
              rw [hveq, hparse] at h2
              simp at h2
            · exact ih2 v hc hbl
        · by_cases hbl : version ∈ blacklist
          · have hstep : newestStep blacklist acc e = acc := by
              unfold newestStep
              rw [if_neg hdir, if_neg (by rwa [not_not]), if_neg hparse,
                if_pos hbl]
            rw [hstep]
            obtain ⟨ih1, ih2, ih3⟩ := newestFold_inv blacklist l acc
            refine ⟨?_, ?_, ih3⟩
            · rcases ih1 with h | h
              · exact Or.inl h
              · exact Or.inr ⟨orchCandidate_cons_of_tail h.1, h.2⟩
            · intro v hv hblv
              rcases orchCandidate_cons_elim hv with hc | hc
              · have hveq : v = version :=
                  (orchCandidate_eq hc.2.1).trans hver.symm
                rw [hveq] at hblv
                exact absurd hbl hblv
              · exact ih2 v hc hblv
          · have hvsome : (parseVersion version).isSome := by
              cases hpv : parseVersion version with
              | none => rw [hpv] at hparse; simp at hparse
              | some x => simp
            have hvne : version ≠ [] := ne_nil_of_parseVersion_isSome hvsome
            have hcandv : OrchCandidate (e :: l) version := by
              refine ⟨e, List.mem_cons_self e l, by simpa using hdir, ?_, hvsome⟩
              rw [hver]
              obtain ⟨t, ht⟩ := List.isPrefixOf_iff_prefix.mp hpre
              rw [← ht, List.drop_left]
            by_cases htake : acc = [] ∨ 0 < compareVersions version acc
            · have hstep : newestStep blacklist acc e = version := by
                unfold newestStep
                rw [if_neg hdir, if_neg (by rwa [not_not]), if_neg hparse,
                  if_neg hbl, if_pos htake]
              rw [hstep]
              obtain ⟨ih1, ih2, ih3⟩ := newestFold_inv blacklist l version
              have hvr := ih3 hvne
              refine ⟨?_, ?_, ?_⟩
              · rcases ih1 with h | h
                · rw [h]; exact Or.inr ⟨hcandv, hbl⟩
                · exact Or.inr ⟨orchCandidate_cons_of_tail h.1, h.2⟩
              · intro v hv hblv
                rcases orchCandidate_cons_elim hv with hc | hc
                · have hveq : v = version :=
                    (orchCandidate_eq hc.2.1).trans hver.symm
                  rw [hveq]
                  exact hvr
                · exact ih2 v hc hblv
              · intro haccne
                rcases htake with htake | htake
                · exact absurd htake haccne
                · have hav : compareVersions acc version ≤ 0 := by
                    rw [compareVersions_le_iff]
                    rw [compareVersions_pos_iff] at htake
                    exact Or.inl htake
                  exact ⟨hvr.1, compareVersions_le_trans hav hvr.2⟩
            · push_neg at htake
              have hstep : newestStep blacklist acc e = acc := by
                unfold newestStep
                rw [if_neg hdir, if_neg (by rwa [not_not]), if_neg hparse,
                  if_neg hbl, if_neg (by push_neg; exact htake)]
              rw [hstep]
              obtain ⟨ih1, ih2, ih3⟩ := newestFold_inv blacklist l acc
              have hacc := ih3 htake.1
              refine ⟨?_, ?_, ih3⟩
              · rcases ih1 with h | h
                · exact Or.inl h
                · exact Or.inr ⟨orchCandidate_cons_of_tail h.1, h.2⟩
              · intro v hv hblv
                rcases orchCandidate_cons_elim hv with hc | hc
                · have hveq : v = version :=
                    (orchCandidate_eq hc.2.1).trans hver.symm
                  rw [hveq]
                  refine ⟨hacc.1, ?_⟩
                  have hle := htake.2
                  exact compareVersions_le_trans (by omega) hacc.2
                · exact ih2 v hc hblv
      · have hstep : newestStep blacklist acc e = acc := by
          unfold newestStep
          rw [if_neg hdir, if_pos hpre]
        rw [hstep]
        obtain ⟨ih1, ih2, ih3⟩ := newestFold_inv blacklist l acc
        refine ⟨?_, ?_, ih3⟩
        · rcases ih1 with h | h
          · exact Or.inl h
          · exact Or.inr ⟨orchCandidate_cons_of_tail h.1, h.2⟩
        · intro v hv hbl
          rcases orchCandidate_cons_elim hv with hc | hc
          · exfalso
            apply hpre
            rw [hc.2.1]
            exact List.isPrefixOf_iff_prefix.mpr ⟨v, rfl⟩
          · exact ih2 v hc hbl

instance (entries : List BinEntry) (v : GoStr) :
    Decidable (OrchCandidate entries v) := by
  unfold OrchCandidate
  exact List.decidableBEx _ entries

instance (entries : List BinEntry) (blacklist : List GoStr)
    (ownVersion v : GoStr) :
    Decidable (Phase0Eligible entries blacklist ownVersion v) := by
  unfold Phase0Eligible
  infer_instance

/-- C1: at every non-verification start, phase 0 selects the highest
non-blacklisted version among the `shem-orchestrator-<version>` files that is
strictly greater than the compiled-in version; if one exists it first
persists that version to the on-disk blacklist and then runs that binary with
`--verification-run`, exiting with the child's exit code (`0` when the child
exits cleanly, via `childExitCode`); with the verification flag set the whole
phase is skipped. -/
theorem mainPhase0_spec (entries : List BinEntry)
    (ownVersion blacklistFile : GoStr) (child : ChildOutcome) :
    (mainPhase0 true entries ownVersion blacklistFile child =
      (.proceed, blacklistFile)) ∧
    ((∀ v, ¬ Phase0Eligible entries (getBlacklistedVersions blacklistFile)
        ownVersion v) →
      mainPhase0 false entries ownVersion blacklistFile child =
        (.proceed, blacklistFile)) ∧
    (∀ v0, Phase0Eligible entries (getBlacklistedVersions blacklistFile)
        ownVersion v0 →
      ∃ w, Phase0Eligible entries (getBlacklistedVersions blacklistFile)
          ownVersion w ∧
        (∀ u, Phase0Eligible entries (getBlacklistedVersions blacklistFile)
            ownVersion u → compareVersions u w ≤ 0) ∧
        mainPhase0 false entries ownVersion blacklistFile child =
          (.runVerification (orchBinStem ++ w) (childExitCode child),
            addToBlacklist blacklistFile w) ∧
        w ∈ getBlacklistedVersions (addToBlacklist blacklistFile w)) := by
  obtain ⟨inv1, inv2, _⟩ :=
    newestFold_inv (getBlacklistedVersions blacklistFile) entries []
  refine ⟨?_, ?_, ?_⟩
  · unfold mainPhase0
    rw [if_pos rfl]
  · intro hno
    unfold mainPhase0
    rw [if_neg (by simp)]
    dsimp only
    rw [if_neg ?_]
    rintro ⟨hne, hpos⟩
    rcases inv1 with h | h
    · exact hne h
    · exact hno _ ⟨h.1, h.2, hpos⟩
  · intro v0 hv0
    have hr2 := inv2 v0 hv0.1 hv0.2.1
    have hrpos := compareVersions_pos_trans hv0.2.2 hr2.2
    have hrel : Phase0Eligible entries (getBlacklistedVersions blacklistFile)
        ownVersion (findNewestOrchestratorVersion entries
          (getBlacklistedVersions blacklistFile)) := by
      rcases inv1 with h | h
      · exact absurd h hr2.1
      · exact ⟨h.1, h.2, hrpos⟩
    refine ⟨_, hrel, fun u hu => (inv2 u hu.1 hu.2.1).2, ?_, ?_⟩
    · unfold mainPhase0
      rw [if_neg (by simp)]
      dsimp only
      rw [if_pos ⟨hr2.1, hrpos⟩]
    · have hrsome : (parseVersion (findNewestOrchestratorVersion entries
          (getBlacklistedVersions blacklistFile))).isSome := by
        obtain ⟨e, _, _, _, hps⟩ := hrel.1
        exact hps
      unfold addToBlacklist
      dsimp only
      rw [getBlacklistedVersions_writeBlacklistFile ?_ ?_]
      · rw [List.mem_insertionSort]
        split_ifs with h
        · exact h
        · exact List.mem_append.mpr (Or.inr (List.mem_singleton.mpr rfl))
      · intro x hx
        split_ifs at hx with h
        · exact getBlacklistedVersions_clean blacklistFile x hx
        · rcases List.mem_append.mp hx with hm | hm
          · exact getBlacklistedVersions_clean blacklistFile x hm
          · rw [List.mem_singleton] at hm
            exact hm ▸ cleanToken_of_parseVersion_isSome hrsome
      · split_ifs with h
        · exact getBlacklistedVersions_nodup blacklistFile
        · exact List.Nodup.append (getBlacklistedVersions_nodup blacklistFile)
            (List.nodup_singleton _) (by simpa using hrel.2.1)

/-- Witness for C1 at a concrete input: with no eligible binary in the bin
directory, phase 0 proceeds to the normal run and leaves the blacklist file
alone. -/
theorem mainPhase0_spec_witness :
    mainPhase0 false [] ("0.0.4".toList) [] (.exited 3) = (.proceed, []) :=
  (mainPhase0_spec [] ("0.0.4".toList) [] (.exited 3)).2.1
    (fun _ hv => by obtain ⟨e, he, _⟩ := hv.1; simp at he)

/-! ### The update scheduling inner loop (`checkAndScheduleUpdates`) -/

/-- The per-module state the scheduling loop manipulates: the in-memory
blacklist map `mem` (loaded from and then diverging from the on-disk file),
the blacklist file contents themselves, the module's `scheduledUpdates`
entry, and whether a deferred update task has been spawned. -/
structure CycleState where
  mem : List GoStr
  file : GoStr
  scheduled : Option GoStr
  spawned : Bool
deriving DecidableEq

/-- Model of the inner `for` loop of `checkAndScheduleUpdates` for one
module. `verify` abstracts `verifyAndPullImage` (podman pulls plus signature
verification); `skipSchedule` is `verificationRun && moduleName ==
"orchestrator"`. The loop body: select `findLatestEligibleVersion`; stop when
none; on verification failure add the version to the in-memory map and
retry; on success record the scheduled update and spawn the deferred task
(unless skipped) and stop. `fuel` bounds the iterations: each failure
permanently removes the selected version from eligibility, so any
`fuel > versions.length` reproduces the Go loop exactly. -/
def updateCycleLoop (fuel : Nat) (versions : List GoStr)
    (minimumVersion : GoStr) (verify : GoStr → Bool) (skipSchedule : Bool)
    (st : CycleState) : CycleState :=
  match fuel with
  | 0 => st
  | fuel + 1 =>
    match findLatestEligibleVersion versions minimumVersion st.mem with
    | none => st
    | some latest =>
      if verify latest then
        if skipSchedule then st
        else { st with scheduled := some latest, spawned := true }
      else
        updateCycleLoop fuel versions minimumVersion verify skipSchedule
          { st with mem := if latest ∈ st.mem then st.mem
                           else st.mem ++ [latest] }

/-- Soundness of the selection used inside the loop, with no assumptions on
the inputs: a returned version is a remote version, is not blacklisted, and
beats a non-empty minimum. -/
theorem findLatestEligibleVersion_sound :
    ∀ {versions : List GoStr} {minimumVersion : GoStr}
      {blacklist : List GoStr} {v : GoStr},
      findLatestEligibleVersion versions minimumVersion blacklist = some v →
      v ∈ versions ∧ v ∉ blacklist ∧
        (minimumVersion ≠ [] → 0 < compareVersions v minimumVersion) := by
  have key : ∀ (minimumVersion : GoStr) (blacklist : List GoStr)
      (l : List GoStr) (acc : GoStr),
      l.foldl (eligStep minimumVersion blacklist) acc = acc ∨
        (l.foldl (eligStep minimumVersion blacklist) acc ∈ l ∧
          l.foldl (eligStep minimumVersion blacklist) acc ∉ blacklist ∧
          (minimumVersion ≠ [] →
            0 < compareVersions
              (l.foldl (eligStep minimumVersion blacklist) acc)
              minimumVersion)) := by
    intro minimumVersion blacklist l
    induction l with
    | nil => intro acc; simp
    | cons v l ih =>
      intro acc
      simp only [List.foldl_cons]
      rcases ih (eligStep minimumVersion blacklist acc v) with h | h
      · rw [h]
        unfold eligStep
        split_ifs with h1 h2 h3 h4
        · exact Or.inl rfl
        · exact Or.inl rfl
        · refine Or.inr ⟨List.mem_cons_self v l, h1, fun hmin => ?_⟩
          rcases Decidable.em (compareVersions v minimumVersion ≤ 0) with
            hc | hc
          · exact absurd ⟨hmin, hc⟩ h2
          · omega
        · refine Or.inr ⟨List.mem_cons_self v l, h1, fun hmin => ?_⟩
          rcases Decidable.em (compareVersions v minimumVersion ≤ 0) with
            hc | hc
          · exact absurd ⟨hmin, hc⟩ h2
          · omega
        · exact Or.inl rfl
      · exact Or.inr ⟨List.mem_cons_of_mem v h.1, h.2.1, h.2.2⟩
  intro versions minimumVersion blacklist v h
  unfold findLatestEligibleVersion at h
  by_cases h1 : versions = []
  · rw [if_pos h1] at h; simp at h
  · rw [if_neg h1] at h
    dsimp only at h
    by_cases h2 : versions.foldl (eligStep minimumVersion blacklist) [] = []
    · rw [if_pos h2] at h; simp at h
    · rw [if_neg h2] at h
      have hv := Option.some.inj h
      rcases key minimumVersion blacklist versions [] with hk | hk
      · exact absurd hk h2
      · rw [hv] at hk
        exact hk

/-- The loop's invariants: the blacklist file is never written, every new
in-memory entry is a version that failed verification, and any change to the
schedule is a verified, eligible version with the task spawned. -/
theorem updateCycleLoop_inv :
    ∀ (fuel : Nat) (versions : List GoStr) (minimumVersion : GoStr)
      (verify : GoStr → Bool) (skipSchedule : Bool) (st : CycleState),
      (updateCycleLoop fuel versions minimumVersion verify skipSchedule
        st).file = st.file ∧
      (∀ v, v ∈ (updateCycleLoop fuel versions minimumVersion verify
          skipSchedule st).mem → v ∉ st.mem →
        verify v = false ∧ v ∈ versions ∧
          (minimumVersion ≠ [] → 0 < compareVersions v minimumVersion)) ∧
      ((updateCycleLoop fuel versions minimumVersion verify skipSchedule
          st).scheduled ≠ st.scheduled →
        ∃ v, (updateCycleLoop fuel versions minimumVersion verify skipSchedule
            st).scheduled = some v ∧ verify v = true ∧ v ∈ versions ∧
          (minimumVersion ≠ [] → 0 < compareVersions v minimumVersion) ∧
          (updateCycleLoop fuel versions minimumVersion verify skipSchedule
            st).spawned = true ∧ skipSchedule = false)
  | 0, versions, minimumVersion, verify, skipSchedule, st => by
    refine ⟨rfl, ?_, ?_⟩
    · intro v hv hnv
      exact absurd hv hnv
    · intro h
      exact absurd rfl h
  | fuel + 1, versions, minimumVersion, verify, skipSchedule, st => by
    unfold updateCycleLoop
    cases hfind : findLatestEligibleVersion versions minimumVersion st.mem with
    | none =>
      refine ⟨rfl, ?_, ?_⟩
      · intro v hv hnv
        exact absurd hv hnv
      · intro h
        exact absurd rfl h
    | some latest =>
      dsimp only
      obtain ⟨hmem, hnbl, hmin⟩ := findLatestEligibleVersion_sound hfind
      by_cases hver : verify latest
      · rw [if_pos hver]
        by_cases hskip : skipSchedule
        · rw [if_pos hskip]
          refine ⟨rfl, ?_, ?_⟩
          · intro v hv hnv
            exact absurd hv hnv
          · intro h
            exact absurd rfl h
        · rw [if_neg hskip]
          refine ⟨rfl, ?_, ?_⟩
          · intro v hv hnv
            exact absurd hv hnv
          · intro _
            exact ⟨latest, rfl, hver, hmem, hmin, rfl,
              Bool.not_eq_true skipSchedule ▸ hskip⟩
      · rw [if_neg hver]
        have hcond : (latest ∈ st.mem) = False := by
          simp [hnbl]
        rw [show (if latest ∈ st.mem then st.mem else st.mem ++ [latest]) =
          st.mem ++ [latest] from by rw [if_neg hnbl]]
        obtain ⟨ih1, ih2, ih3⟩ := updateCycleLoop_inv fuel versions
          minimumVersion verify skipSchedule
          { st with mem := st.mem ++ [latest] }
        refine ⟨ih1, ?_, ?_⟩
        · intro v hv hnv
          by_cases hvin : v ∈ st.mem ++ [latest]
          · rcases List.mem_append.mp hvin with hm | hm
            · exact absurd hm hnv
            · rw [List.mem_singleton] at hm
              subst hm
              exact ⟨Bool.not_eq_true (verify v) ▸ hver, hmem, hmin⟩
          · exact ih2 v hv hvin
        · intro h
          exact ih3 h

/-- The in-memory blacklist only grows along the loop. -/
theorem updateCycleLoop_mem_mono :
    ∀ (fuel : Nat) (versions : List GoStr) (minimumVersion : GoStr)
      (verify : GoStr → Bool) (skipSchedule : Bool) (st : CycleState),
      ∀ v ∈ st.mem,
        v ∈ (updateCycleLoop fuel versions minimumVersion verify skipSchedule
          st).mem
  | 0, _, _, _, _, _ => fun _ hv => hv
  | fuel + 1, versions, minimumVersion, verify, skipSchedule, st => by
    intro v hv
    unfold updateCycleLoop
    cases hfind : findLatestEligibleVersion versions minimumVersion st.mem with
    | none => exact hv
    | some latest =>
      dsimp only
      by_cases hver : verify latest
      · rw [if_pos hver]
        by_cases hskip : skipSchedule
        · rw [if_pos hskip]
          exact hv
        · rw [if_neg hskip]
          exact hv
      · rw [if_neg hver]
        apply updateCycleLoop_mem_mono fuel
        show v ∈ (if latest ∈ st.mem then st.mem else st.mem ++ [latest])
        by_cases hmem : latest ∈ st.mem
        · rw [if_pos hmem]
          exact hv
        · rw [if_neg hmem]
          exact List.mem_append.mpr (Or.inl hv)

/-- C2 (amended): whenever the loop selects a version and `verify_and_pull`
fails on it, that version is added to the in-memory blacklist used for the
rest of the cycle and the loop retries selection on the extended blacklist;
on success the version is recorded in `scheduledUpdates` and a deferred task
is spawned; the module's on-disk blacklist file is never written. -/
theorem updateCycleLoop_spec :
    ∀ (fuel : Nat) (versions : List GoStr) (minimumVersion : GoStr)
      (verify : GoStr → Bool) (skipSchedule : Bool) (st : CycleState),
      (updateCycleLoop fuel versions minimumVersion verify skipSchedule
        st).file = st.file ∧
      (∀ v, findLatestEligibleVersion versions minimumVersion st.mem = some v →
        verify v = false →
        v ∉ st.mem ∧
        updateCycleLoop (fuel + 1) versions minimumVersion verify skipSchedule
          st =
          updateCycleLoop fuel versions minimumVersion verify skipSchedule
            { st with mem := st.mem ++ [v] } ∧
        v ∈ (updateCycleLoop (fuel + 1) versions minimumVersion verify
          skipSchedule st).mem) ∧
      (∀ v, findLatestEligibleVersion versions minimumVersion st.mem = some v →
        verify v = true → skipSchedule = false →
        updateCycleLoop (fuel + 1) versions minimumVersion verify skipSchedule
          st = { st with scheduled := some v, spawned := true }) ∧
      (∀ v, v ∈ (updateCycleLoop fuel versions minimumVersion verify
          skipSchedule st).mem → v ∉ st.mem →
        verify v = false ∧ v ∈ versions ∧
          (minimumVersion ≠ [] → 0 < compareVersions v minimumVersion)) ∧
      ((updateCycleLoop fuel versions minimumVersion verify skipSchedule
          st).scheduled ≠ st.scheduled →
        ∃ v, (updateCycleLoop fuel versions minimumVersion verify skipSchedule
            st).scheduled = some v ∧ verify v = true ∧ v ∈ versions ∧
          (minimumVersion ≠ [] → 0 < compareVersions v minimumVersion) ∧
          (updateCycleLoop fuel versions minimumVersion verify skipSchedule
            st).spawned = true ∧ skipSchedule = false) := by
  intro fuel versions minimumVersion verify skipSchedule st
  obtain ⟨h1, h4, h5⟩ :=
    updateCycleLoop_inv fuel versions minimumVersion verify skipSchedule st
  have hunf : updateCycleLoop (fuel + 1) versions minimumVersion verify
      skipSchedule st =
      match findLatestEligibleVersion versions minimumVersion st.mem with
      | none => st
      | some latest =>
        if verify latest then
          if skipSchedule then st
          else { st with scheduled := some latest, spawned := true }
        else
          updateCycleLoop fuel versions minimumVersion verify skipSchedule
            { st with mem := if latest ∈ st.mem then st.mem
                             else st.mem ++ [latest] } := rfl
  refine ⟨h1, ?_, ?_, h4, h5⟩
  · intro v hsel hfail
    have hnbl := (findLatestEligibleVersion_sound hsel).2.1
    have hstep : updateCycleLoop (fuel + 1) versions minimumVersion verify
        skipSchedule st =
        updateCycleLoop fuel versions minimumVersion verify skipSchedule
          { st with mem := st.mem ++ [v] } := by
      rw [hunf, hsel]
      dsimp only
      rw [if_neg (by simp [hfail])]
      rw [show (if v ∈ st.mem then st.mem else st.mem ++ [v]) =
        st.mem ++ [v] from by rw [if_neg hnbl]]
    refine ⟨hnbl, hstep, ?_⟩
    rw [hstep]
    apply updateCycleLoop_mem_mono
    show v ∈ st.mem ++ [v]
    exact List.mem_append.mpr (Or.inr (List.mem_singleton.mpr rfl))
  · intro v hsel hok hskip
    rw [hunf, hsel]
    dsimp only
    rw [if_pos hok, if_neg (by simp [hskip])]

/-- Witness for C2's amended statement at a concrete input: on success the
version is recorded in the schedule with the task spawned, and the file
stays unchanged. -/
theorem updateCycleLoop_spec_witness :
    findLatestEligibleVersion ["0.5.0".toList] ("0.4.0".toList) [] =
      some ("0.5.0".toList) ∧
    updateCycleLoop 1 ["0.5.0".toList] ("0.4.0".toList) (fun _ => true) false
      ⟨[], [], none, false⟩ = ⟨[], [], some ("0.5.0".toList), true⟩ ∧
    (updateCycleLoop 2 ["0.5.0".toList] ("0.4.0".toList) (fun _ => false)
      false ⟨[], [], none, false⟩).file = [] := by
  have h := updateCycleLoop_spec 0 ["0.5.0".toList] ("0.4.0".toList)
    (fun _ => true) false ⟨[], [], none, false⟩
  have hfile := (updateCycleLoop_spec 2 ["0.5.0".toList] ("0.4.0".toList)
    (fun _ => false) false ⟨[], [], none, false⟩).1
  exact ⟨by decide, h.2.2.1 ("0.5.0".toList) (by decide) rfl rfl, hfile⟩

/-- Counterexample for C2 as frozen: a verification failure for version
0.5.0 lands in the in-memory blacklist but is not persisted to the module's
blacklist file, which stays empty. -/
theorem updateCycleLoop_counterexample :
    (updateCycleLoop 2 ["0.5.0".toList] ("0.4.0".toList) (fun _ => false)
      false ⟨[], [], none, false⟩).mem = ["0.5.0".toList] ∧
    (updateCycleLoop 2 ["0.5.0".toList] ("0.4.0".toList) (fun _ => false)
      false ⟨[], [], none, false⟩).file = [] ∧
    "0.5.0".toList ∉ getBlacklistedVersions
      ((updateCycleLoop 2 ["0.5.0".toList] ("0.4.0".toList) (fun _ => false)
        false ⟨[], [], none, false⟩).file) := by
  refine ⟨by decide, by decide, by decide⟩

/-! ### The message codec (`shemmsg/shemmsg.go`)

`float64` is modelled as a sum type: NaN, signed infinity, or a signed
rational magnitude. A real `float64` is a special case (every finite double
is a rational); keeping the sign separately from the magnitude makes the
negative zero representable, which `strconv` treats differently from zero.
`strconv.FormatFloat(f, 'f', 3, 64)` correctly rounds the exact value of the
double to three decimals, ties to even; the model applies the same rounding
to the rational magnitude.  `strconv.ParseFloat` returns the double nearest
the decimal string; on the at-most-3-decimal strings accepted by the codec
the model keeps the exact rational instead, which agrees through the
codec's renderings. -/

def maxNameLength : Nat := 100
def maxMessageBytes : Nat := 10000
def timeStepMinutes : Nat := 5

/-- The float64 abstraction. -/
inductive GoFloat
  | nan
  | inf (neg : Bool)
  | finite (neg : Bool) (mag : ℚ)
deriving DecidableEq

/-- Well-formed abstract floats carry a non-negative magnitude (the sign
lives in the flag). -/
def GoFloat.Wf : GoFloat → Prop
  | .finite _ mag => 0 ≤ mag
  | _ => True

instance (f : GoFloat) : Decidable f.Wf := by
  unfold GoFloat.Wf
  cases f <;> infer_instance

/-- Round to the nearest integer, ties to even, as Go's fixed-precision
float formatting does on the exact value. -/
def roundHalfEven (x : ℚ) : Int :=
  if x - ⌊x⌋ < 1 / 2 then ⌊x⌋
  else if 1 / 2 < x - ⌊x⌋ then ⌊x⌋ + 1
  else if ⌊x⌋ % 2 = 0 then ⌊x⌋ else ⌊x⌋ + 1

def digitChar (d : Nat) : Char := Char.ofNat (48 + d)

/-- Decimal digits of a natural number, no padding. -/
def natDecimal (n : Nat) : GoStr :=
  if n < 10 then [digitChar n]
  else natDecimal (n / 10) ++ [digitChar (n % 10)]
termination_by n
decreasing_by exact Nat.div_lt_self (by omega) (by omega)

/-- Three decimal digits, zero-padded (`n < 1000`). -/
def pad3 (n : Nat) : GoStr :=
  [digitChar (n / 100 % 10), digitChar (n / 10 % 10), digitChar (n % 10)]

/-- A non-negative rational rendered with exactly three fraction digits. -/
def fmtFixed3 (mag : ℚ) : GoStr :=
  natDecimal ((roundHalfEven (1000 * mag)).toNat / 1000) ++
    '.' :: pad3 ((roundHalfEven (1000 * mag)).toNat % 1000)

/-- Model of `strconv.FormatFloat(f, 'f', 3, 64)`. -/
def GoFloat.format : GoFloat → GoStr
  | .nan => "NaN".toList
  | .inf neg => if neg then "-Inf".toList else "+Inf".toList
  | .finite neg mag => (if neg then ['-'] else []) ++ fmtFixed3 mag

/-- The errors of the codec; `parseErr` stands for the `ParseError` wrapper
and carries the offending line. -/
inductive MsgErr
  | invalidName
  | invalidValue
  | valueOutOfRange
  | invalidTimestamp
  | unknownType
  | messageTooLarge
  | emptyMessage
  | missingValue
  | missingTimestamp
  | invalidCharacters
  | parseErr (content : GoStr)
deriving DecidableEq

/-- Model of `Value`: a numeric value that may be missing. -/
structure Value where
  value : GoFloat
  missing : Bool
deriving DecidableEq

/-- Model of `Missing()`: the zero value with the missing flag. -/
def Missing : Value := ⟨.finite false 0, true⟩

/-- Model of `Value.String`. -/
def Value.str (v : Value) : GoStr :=
  if v.missing then "missing".toList else v.value.format

/-- Model of `Value.IsMissing`. -/
def Value.isMissing (v : Value) : Bool := v.missing

/-- Model of `Value.Float64`: `none` stands for the panic on a missing
value. -/
def Value.float64? (v : Value) : Option GoFloat :=
  if v.missing then none else some v.value

/-- Count the leading decimal digits and return the remainder, the loop
shape used twice by `isValidNumberFormat`. -/
def countLeadingDigits : GoStr → Nat × GoStr
  | [] => (0, [])
  | c :: cs =>
    if isDigitB c then
      ((countLeadingDigits cs).1 + 1, (countLeadingDigits cs).2)
    else (0, c :: cs)

/-- Model of `isValidNumberFormat`: optional sign, up to 8 digits before an
optional decimal point, up to 3 digits after, at least one digit, nothing
else. -/
def isValidNumberFormat (s : GoStr) : Bool :=
  match s with
  | [] => false
  | c :: cs =>
    let afterSign : Option GoStr :=
      if c = '+' ∨ c = '-' then (if cs = [] then none else some cs)
      else some (c :: cs)
    match afterSign with
    | none => false
    | some s1 =>
      let before := countLeadingDigits s1
      let after :=
        match before.2 with
        | c :: r => if c = '.' then countLeadingDigits r else (0, c :: r)
        | [] => (0, ([] : GoStr))
      if after.2 ≠ [] then false
      else if before.1 + after.1 = 0 then false
      else if before.1 > 8 ∨ after.1 > 3 then false
      else true

/-- Model of `Number`: build the value and validate its canonical
rendering. -/
def Number (f : GoFloat) : Except MsgErr Value :=
  if isValidNumberFormat (Value.str ⟨f, false⟩) then .ok ⟨f, false⟩
  else .error .valueOutOfRange

/-- Exact magnitude of an unsigned decimal string (integer digits, optional
point, fraction digits). -/
def parseMagQ (s : GoStr) : ℚ :=
  match goSplitOn '.' s with
  | [ip] => (digitsToNat ip : ℚ)
  | [ip, fp] => (digitsToNat ip : ℚ) + (digitsToNat fp : ℚ) / (10 ^ fp.length : ℚ)
  | _ => 0

/-- Model of `strconv.ParseFloat` on the decimal strings accepted by
`isValidNumberFormat`: sign plus exact magnitude. -/
def parseFloatQ (s : GoStr) : GoFloat :=
  match s with
  | [] => .finite false 0
  | c :: cs =>
    if c = '-' then .finite true (parseMagQ cs)
    else if c = '+' then .finite false (parseMagQ cs)
    else .finite false (parseMagQ (c :: cs))

/-- Model of `parseValue`. -/
def parseValue (s : GoStr) : Except MsgErr Value :=
  let t := goTrimSpace s
  if t = "missing".toList then .ok Missing
  else if ¬ isValidNumberFormat t then .error .invalidValue
  else .ok ⟨parseFloatQ t, false⟩

/-! #### Timestamps -/

/-- The observable content of the `time.Time` values the codec constructs:
a UTC wall-clock time at minute resolution. -/
structure DateTime where
  year : Nat
  month : Nat
  day : Nat
  hour : Nat
  minute : Nat
deriving DecidableEq

def isLeapYear (y : Nat) : Bool :=
  y % 4 = 0 ∧ (y % 100 ≠ 0 ∨ y % 400 = 0)

def daysInMonth (y m : Nat) : Nat :=
  if m = 2 then (if isLeapYear y then 29 else 28)
  else if m = 4 ∨ m = 6 ∨ m = 9 ∨ m = 11 then 30
  else 31

/-- A calendar-valid timestamp in the range rendered with a four-digit
year. -/
def DateTime.Wf (t : DateTime) : Prop :=
  1 ≤ t.year ∧ t.year ≤ 9999 ∧ 1 ≤ t.month ∧ t.month ≤ 12 ∧
    1 ≤ t.day ∧ t.day ≤ daysInMonth t.year t.month ∧
    t.hour ≤ 23 ∧ t.minute ≤ 59

instance (t : DateTime) : Decidable t.Wf := by
  unfold DateTime.Wf
  infer_instance

def pad2 (n : Nat) : GoStr := [digitChar (n / 10 % 10), digitChar (n % 10)]

def pad4 (n : Nat) : GoStr :=
  [digitChar (n / 1000 % 10), digitChar (n / 100 % 10),
    digitChar (n / 10 % 10), digitChar (n % 10)]

/-- Model of `StartTime.UTC().Format("2006-01-02T15:04")`. -/
def renderDateTime (t : DateTime) : GoStr :=
  pad4 t.year ++ '-' :: (pad2 t.month ++ '-' :: (pad2 t.day ++
    'T' :: (pad2 t.hour ++ ':' :: pad2 t.minute)))

/-- Model of `time.Parse("2006-01-02T15:04", s)` on canonically shaped
inputs: sixteen characters, fixed separators, decimal fields, and the range
checks the Go parser performs (month, day against the month length, hour,
minute). Go additionally accepts a one-digit hour; no rendered timestamp
takes that shape. -/
def parseDateTime (s : GoStr) : Option DateTime :=
  match s with
  | [y1, y2, y3, y4, s1, m1, m2, s2, d1, d2, s3, h1, h2, s4, n1, n2] =>
    if s1 = '-' ∧ s2 = '-' ∧ s3 = 'T' ∧ s4 = ':' then
      if [y1, y2, y3, y4, m1, m2, d1, d2, h1, h2, n1, n2].all isDigitB then
        let t : DateTime :=
          ⟨digitsToNat [y1, y2, y3, y4], digitsToNat [m1, m2],
            digitsToNat [d1, d2], digitsToNat [h1, h2], digitsToNat [n1, n2]⟩
        if 1 ≤ t.month ∧ t.month ≤ 12 ∧ 1 ≤ t.day ∧
            t.day ≤ daysInMonth t.year t.month ∧ t.hour ≤ 23 ∧ t.minute ≤ 59
        then some t
        else none
      else none
    else none
  | _ => none

/-! #### Messages -/

/-- The payload sum: `PointValue` or `TimeSeries`. -/
inductive Payload
  | pointValue (value : Value)
  | timeSeries (startTime : DateTime) (values : List Value)
deriving DecidableEq

/-- Model of `payloadType`. -/
def Payload.typeName : Payload → GoStr
  | .pointValue _ => "pointvalue".toList
  | .timeSeries _ _ => "timeseries".toList

/-- Model of `encodePayload`. -/
def Payload.encodePayload : Payload → GoStr
  | .pointValue v => v.str
  | .timeSeries t vs =>
    renderDateTime t ++ vs.foldl (fun acc v => acc ++ '\n' :: v.str) []

structure Message where
  name : GoStr
  payload : Payload
deriving DecidableEq

/-- Model of `Message.Encode`: header line, then the payload, no
surrounding newlines. -/
def Message.encode (m : Message) : GoStr :=
  m.payload.typeName ++ ' ' :: (m.name ++ '\n' :: m.payload.encodePayload)

/-! #### Name validation -/

def isNameChar (c : Char) : Bool :=
  ('a' ≤ c ∧ c ≤ 'z') ∨ ('A' ≤ c ∧ c ≤ 'Z') ∨ ('0' ≤ c ∧ c ≤ '9') ∨ c = '_'

/-- Model of `strings.Index` for a single character. -/
def goIndexOf : GoStr → Char → Option Nat
  | [], _ => none
  | c :: cs, t => if c = t then some 0 else (goIndexOf cs t).map (· + 1)

/-- Model of `SplitName`. -/
def splitName (name : GoStr) : GoStr × GoStr :=
  match goIndexOf name '.' with
  | none => ([], name)
  | some idx => (name.take idx, name.drop (idx + 1))

/-- Model of `ValidateNamePart`. -/
def validateNamePart (name : GoStr) : Bool :=
  name ≠ [] ∧ name.length ≤ maxNameLength ∧ name.all isNameChar

/-- Model of `ValidateName`. -/
def validateName (name : GoStr) : Bool :=
  if name.head? = some '.' then false
  else
    validateNamePart (splitName name).2 ∧
      ((splitName name).1 = [] ∨ validateNamePart (splitName name).1)

/-! #### Parsing -/

/-- Byte length of a string (the model's strings are character lists). -/
def byteLen (s : GoStr) : Nat := (s.map Char.utf8Size).sum

/-- Model of `isPrintableASCII`: every byte in `[0x20, 0x7E]` or `\n`. -/
def isPrintableASCII (s : GoStr) : Bool :=
  s.all fun c => c = '\n' ∨ (' ' ≤ c ∧ c ≤ '~')

/-- The trailing-empty-line removal loop of `Parse`. -/
def removeTrailingEmpty (lines : List GoStr) : List GoStr :=
  (lines.reverse.dropWhile (· = [])).reverse

/-- Model of `parsePointValue`. -/
def parsePointValue (lines : List GoStr) : Except MsgErr Payload :=
  match lines with
  | [line] =>
    match parseValue line with
    | .ok v => .ok (.pointValue v)
    | .error _ => .error (.parseErr line)
  | _ => .error .missingValue

/-- The value loop of `parseTimeSeries`. -/
def parseValues : List GoStr → Except MsgErr (List Value)
  | [] => .ok []
  | l :: ls =>
    match parseValue l with
    | .error _ => .error (.parseErr l)
    | .ok v =>
      match parseValues ls with
      | .error e => .error e
      | .ok vs => .ok (v :: vs)

/-- Model of `parseTimeSeries`. -/
def parseTimeSeries (lines : List GoStr) : Except MsgErr Payload :=
  match lines with
  | [] => .error .missingTimestamp
  | [_] => .error .missingTimestamp
  | tsLine :: valueLines =>
    match parseDateTime tsLine with
    | none => .error (.parseErr tsLine)
    | some t =>
      if t.minute % timeStepMinutes ≠ 0 then .error (.parseErr tsLine)
      else
        match parseValues valueLines with
        | .error e => .error e
        | .ok vs => .ok (.timeSeries t vs)

/-- Model of `Parse`. -/
def Parse (data : GoStr) : Except MsgErr Message :=
  if byteLen data > maxMessageBytes then .error .messageTooLarge
  else if ¬ isPrintableASCII data then .error .invalidCharacters
  else
    match removeTrailingEmpty (goSplitOn '\n' data) with
    | [] => .error .emptyMessage
    | line0 :: rest =>
      match goFields line0 with
      | [msgType, name] =>
        if ¬ validateName name then .error (.parseErr line0)
        else if msgType = "pointvalue".toList then
          match parsePointValue rest with
          | .ok p => .ok ⟨name, p⟩
          | .error e => .error e
        else if msgType = "timeseries".toList then
          match parseTimeSeries rest with
          | .ok p => .ok ⟨name, p⟩
          | .error e => .error e
        else .error (.parseErr line0)
      | _ => .error (.parseErr line0)

/-! #### The stream reader -/

/-- Tokens produced by `bufio.Scanner` with the `scanNewlines` split
function on the whole stream: split at every newline, with no empty final
token when the stream ends in a newline or is empty. Unlike `ScanLines`,
`scanNewlines` does not strip carriage returns. -/
def scanNewlineTokens (s : GoStr) : List GoStr :=
  if s = [] then []
  else
    let parts := goSplitOn '\n' s
    if parts.getLast? = some [] then parts.dropLast else parts

/-- The accumulation loop of `Reader.Read`: append lines and a newline each
until an empty line or the end of the stream, failing when the buffer
exceeds `maxMessageBytes`. `bufLen` mirrors `buf.Len()`. -/
def readBody : GoStr → Nat → List GoStr → Except MsgErr GoStr × List GoStr
  | buf, _, [] => (.ok buf, [])
  | buf, bufLen, l :: ls =>
    if l = [] then (.ok buf, ls)
    else
      if bufLen + byteLen l + 1 > maxMessageBytes then
        (.error .messageTooLarge, ls)
      else readBody (buf ++ l ++ ['\n']) (bufLen + byteLen l + 1) ls

/-- The reader's result: end of stream, an error, or a message. -/
inductive ReadResult
  | eof
  | failed (e : MsgErr)
  | msg (m : Message)
deriving DecidableEq

/-- Model of `Reader.Read` on the remaining tokens of the stream: skip
leading empty lines, accumulate the body, parse it. Returns the result and
the tokens left for subsequent reads. -/
def readerRead (tokens : List GoStr) : ReadResult × List GoStr :=
  match tokens.dropWhile (· = []) with
  | [] => (.eof, [])
  | first :: rest =>
    match readBody (first ++ ['\n']) (byteLen first + 1) rest with
    | (.error e, rem) => (.failed e, rem)
    | (.ok buf, rem) =>
      match Parse buf with
      | .ok m => (.msg m, rem)
      | .error e => (.failed e, rem)

/-- Model of `Writer.Write`'s framing: the encoded message surrounded by two
newlines on each side. -/
def writeFramed (m : Message) : GoStr :=
  '\n' :: '\n' :: (m.encode ++ ['\n', '\n'])

/-! ### Auxiliary lemmas for the codec proofs -/

theorem byteLen_append (a b : GoStr) :
    byteLen (a ++ b) = byteLen a + byteLen b := by
  unfold byteLen
  rw [List.map_append, List.sum_append]

theorem byteLen_cons (c : Char) (a : GoStr) :
    byteLen (c :: a) = c.utf8Size + byteLen a := by
  unfold byteLen
  rw [List.map_cons, List.sum_cons]

theorem removeTrailingEmpty_eq {lines : List GoStr}
    (h : ∀ l ∈ lines, l ≠ []) : removeTrailingEmpty lines = lines := by
  unfold removeTrailingEmpty
  rw [dropWhile_eq_self_of_head, List.reverse_reverse]
  intro c hc
  have hm : c ∈ lines.reverse := List.mem_of_mem_head? hc
  rw [List.mem_reverse] at hm
  simpa using h c hm

theorem dropWhile_append_of_sat {α : Type} {p : α → Bool} {a b : List α}
    (ha : ∀ x ∈ a, p x) : (a ++ b).dropWhile p = b.dropWhile p := by
  induction a with
  | nil => rfl
  | cons x xs ih =>
    rw [List.cons_append, List.dropWhile_cons,
      if_pos (ha x (List.mem_cons_self x xs))]
    exact ih (fun y hy => ha y (List.mem_cons_of_mem x hy))

/-- The digit characters. -/
theorem digitChar_isDigit : ∀ d : Nat, d < 10 → isDigitB (digitChar d) := by
  decide

theorem digitChar_toNat : ∀ d : Nat, d < 10 → (digitChar d).toNat = 48 + d := by
  decide

theorem digit_printable {c : Char} (h : isDigitB c) :
    (c = '\n' ∨ (' ' ≤ c ∧ c ≤ '~')) := by
  unfold isDigitB at h
  simp only [Bool.and_eq_true, decide_eq_true_eq] at h
  exact Or.inr ⟨le_trans (by decide) h.1, le_trans h.2 (by decide)⟩

theorem digit_ne_specials {c : Char} (h : isDigitB c) :
    c ≠ '\n' ∧ c ≠ ' ' ∧ c ≠ '.' ∧ c ≠ '-' ∧ c ≠ '+' ∧ c ≠ 'm' ∧
      ¬ isGoSpace c := by
  refine ⟨?_, ?_, ?_, ?_, ?_, ?_, ?_⟩ <;>
    first
      | (intro he; subst he; revert h; decide)
      | (intro hsp
         unfold isGoSpace at hsp
         simp only [Bool.or_eq_true, decide_eq_true_eq] at hsp
         rcases hsp with rfl | rfl | rfl | rfl | rfl | rfl <;> revert h <;>
           decide)

theorem nameChar_props {c : Char} (h : isNameChar c) :
    (c = '\n' ∨ (' ' ≤ c ∧ c ≤ '~')) ∧ c ≠ '\n' ∧ ¬ isGoSpace c := by
  unfold isNameChar at h
  simp only [Bool.or_eq_true, Bool.and_eq_true, decide_eq_true_eq] at h
  rcases h with h | h | h | h
  · refine ⟨Or.inr ⟨le_trans (by decide) h.1, le_trans h.2 (by decide)⟩,
      ?_, ?_⟩
    · intro he; subst he; revert h; decide
    · intro hsp
      unfold isGoSpace at hsp
      simp only [Bool.or_eq_true, decide_eq_true_eq] at hsp
      rcases hsp with rfl | rfl | rfl | rfl | rfl | rfl <;> revert h <;> decide
  · refine ⟨Or.inr ⟨le_trans (by decide) h.1, le_trans h.2 (by decide)⟩,
      ?_, ?_⟩
    · intro he; subst he; revert h; decide
    · intro hsp
      unfold isGoSpace at hsp
      simp only [Bool.or_eq_true, decide_eq_true_eq] at hsp
      rcases hsp with rfl | rfl | rfl | rfl | rfl | rfl <;> revert h <;> decide
  · refine ⟨Or.inr ⟨le_trans (by decide) h.1, le_trans h.2 (by decide)⟩,
      ?_, ?_⟩
    · intro he; subst he; revert h; decide
    · intro hsp
      unfold isGoSpace at hsp
      simp only [Bool.or_eq_true, decide_eq_true_eq] at hsp
      rcases hsp with rfl | rfl | rfl | rfl | rfl | rfl <;> revert h <;> decide
  · subst h
    refine ⟨by decide, by decide, by decide⟩

/-! ### Decimal rendering lemmas -/

theorem natDecimal_unfold (n : Nat) :
    natDecimal n = if n < 10 then [digitChar n]
      else natDecimal (n / 10) ++ [digitChar (n % 10)] := by
  rw [natDecimal]

theorem natDecimal_ne_nil (n : Nat) : natDecimal n ≠ [] := by
  rw [natDecimal_unfold]
  split_ifs <;> simp

theorem natDecimal_digits (n : Nat) : ∀ c ∈ natDecimal n, isDigitB c := by
  induction n using Nat.strong_induction_on with
  | _ n ih =>
    rw [natDecimal_unfold]
    split_ifs with h
    · intro c hc
      rw [List.mem_singleton] at hc
      exact hc ▸ digitChar_isDigit n h
    · intro c hc
      rcases List.mem_append.mp hc with hm | hm
      · exact ih (n / 10) (Nat.div_lt_self (by omega) (by omega)) c hm
      · rw [List.mem_singleton] at hm
        exact hm ▸ digitChar_isDigit (n % 10) (Nat.mod_lt n (by omega))

theorem natDecimal_head_digit (n : Nat) :
    ∃ d ds, natDecimal n = d :: ds ∧ isDigitB d := by
  cases h : natDecimal n with
  | nil => exact absurd h (natDecimal_ne_nil n)
  | cons d ds =>
    exact ⟨d, ds, rfl, natDecimal_digits n d (h ▸ List.mem_cons_self d ds)⟩

theorem digitsToNat_append_singleton (a : GoStr) (c : Char) :
    digitsToNat (a ++ [c]) = digitsToNat a * 10 + (c.toNat - 48) := by
  unfold digitsToNat
  rw [List.foldl_append]
  rfl

theorem digitsToNat_natDecimal (n : Nat) :
    digitsToNat (natDecimal n) = n := by
  induction n using Nat.strong_induction_on with
  | _ n ih =>
    rw [natDecimal_unfold]
    split_ifs with h
    · show digitsToNat [digitChar n] = n
      unfold digitsToNat
      rw [List.foldl_cons, List.foldl_nil]
      rw [show (digitChar n).toNat = 48 + n from digitChar_toNat n h]
      omega
    · rw [digitsToNat_append_singleton,
        ih (n / 10) (Nat.div_lt_self (by omega) (by omega)),
        show (digitChar (n % 10)).toNat = 48 + n % 10 from
          digitChar_toNat (n % 10) (Nat.mod_lt n (by omega))]
      omega

theorem natDecimal_length_le : ∀ (k n : Nat), 1 ≤ k → n < 10 ^ k →
    (natDecimal n).length ≤ k
  | 0, n, hk, _ => by omega
  | k + 1, n, _, hn => by
    rw [natDecimal_unfold]
    split_ifs with h
    · simp
    · rw [List.length_append, List.length_singleton]
      have hk1 : 1 ≤ k := by
        by_contra hk0
        have hk' : k = 0 := by omega
        subst hk'
        have h10 : (10 : Nat) ^ (0 + 1) = 10 := by norm_num
        rw [h10] at hn
        omega
      have : n / 10 < 10 ^ k := by
        rw [Nat.div_lt_iff_lt_mul (by omega)]
        calc n < 10 ^ (k + 1) := hn
          _ = 10 ^ k * 10 := by ring
      have := natDecimal_length_le k (n / 10) hk1 this
      omega

theorem le_natDecimal_length : ∀ (k n : Nat), 10 ^ k ≤ n →
    k + 1 ≤ (natDecimal n).length
  | 0, n, _ => by
    have := natDecimal_ne_nil n
    cases h : natDecimal n with
    | nil => exact absurd h this
    | cons d ds => rw [List.length_cons]; omega
  | k + 1, n, hn => by
    rw [natDecimal_unfold]
    have h10 : 10 ≤ n := by
      calc 10 = 10 ^ 1 := by ring
        _ ≤ 10 ^ (k + 1) := Nat.pow_le_pow_right (by omega) (by omega)
        _ ≤ n := hn
    rw [if_neg (by omega)]
    rw [List.length_append, List.length_singleton]
    have : 10 ^ k ≤ n / 10 := by
      rw [Nat.le_div_iff_mul_le (by omega)]
      calc 10 ^ k * 10 = 10 ^ (k + 1) := by ring
        _ ≤ n := hn
    have := le_natDecimal_length k (n / 10) this
    omega

theorem pad3_digits (n : Nat) : ∀ c ∈ pad3 n, isDigitB c := by
  intro c hc
  unfold pad3 at hc
  simp only [List.mem_cons, List.not_mem_nil, or_false] at hc
  rcases hc with rfl | rfl | rfl <;>
    exact digitChar_isDigit _ (Nat.mod_lt _ (by omega))

theorem pad3_length (n : Nat) : (pad3 n).length = 3 := rfl

theorem digitsToNat_pad3 {n : Nat} (h : n < 1000) :
    digitsToNat (pad3 n) = n := by
  unfold pad3 digitsToNat
  rw [List.foldl_cons, List.foldl_cons, List.foldl_cons, List.foldl_nil]
  rw [digitChar_toNat _ (Nat.mod_lt _ (by omega)),
    digitChar_toNat _ (Nat.mod_lt _ (by omega)),
    digitChar_toNat _ (Nat.mod_lt _ (by omega))]
  omega

/-! ### The number-format check on canonically shaped strings -/

theorem countLeadingDigits_of_digits {ds r : GoStr}
    (hds : ∀ c ∈ ds, isDigitB c)
    (hr : ∀ c, r.head? = some c → ¬ isDigitB c) :
    countLeadingDigits (ds ++ r) = (ds.length, r) := by
  induction ds with
  | nil =>
    simp only [List.nil_append, List.length_nil]
    cases r with
    | nil => rfl
    | cons c cs =>
      unfold countLeadingDigits
      rw [if_neg (hr c rfl)]
  | cons d ds ih =>
    have hd : isDigitB d := hds d (List.mem_cons_self d ds)
    have ihh := ih (fun c hc => hds c (List.mem_cons_of_mem d hc))
    simp only [List.cons_append]
    unfold countLeadingDigits
    rw [if_pos hd, ihh]
    simp

/-- The canonical rendering `sign? digits . 3digits` passes the
number-format check exactly when the digit-count limits hold. -/
theorem isValidNumberFormat_shape (neg : Bool) (ds fs : GoStr)
    (hne : ds ≠ []) (hds : ∀ c ∈ ds, isDigitB c)
    (hfs : ∀ c ∈ fs, isDigitB c) :
    (isValidNumberFormat ((if neg then ['-'] else []) ++ ds ++ '.' :: fs)
      = true) ↔ (ds.length ≤ 8 ∧ fs.length ≤ 3) := by
  have hbefore : countLeadingDigits (ds ++ '.' :: fs) = (ds.length, '.' :: fs) :=
    countLeadingDigits_of_digits hds
      (fun c hc => by
        simp only [List.head?_cons, Option.some.injEq] at hc
        rw [← hc]
        decide)
  have hafter : countLeadingDigits (fs ++ []) = (fs.length, []) :=
    countLeadingDigits_of_digits hfs (fun c hc => by simp at hc)
  rw [List.append_nil] at hafter
  have hlen : 1 ≤ ds.length := by
    cases ds with
    | nil => exact absurd rfl hne
    | cons a b => rw [List.length_cons]; omega
  cases neg with
  | true =>
    rw [if_pos rfl]
    show isValidNumberFormat ('-' :: (ds ++ '.' :: fs)) = true ↔ _
    unfold isValidNumberFormat
    dsimp only
    rw [if_pos (Or.inr rfl), if_neg (by simp [hne])]
    dsimp only
    rw [hbefore]
    dsimp only
    rw [if_pos rfl, hafter]
    dsimp only
    rw [if_neg (by simp), if_neg (by omega)]
    by_cases hbig : List.length ds > 8 ∨ List.length fs > 3
    · rw [if_pos hbig]
      constructor
      · intro h
        simp at h
      · intro h
        exfalso
        omega
    · rw [if_neg hbig]
      push_neg at hbig
      constructor
      · intro h
        exact hbig
      · intro h
        rfl
  | false =>
    rw [if_neg (by simp)]
    rw [List.nil_append]
    obtain ⟨d, ds', rfl⟩ := List.exists_cons_of_ne_nil hne
    have hd : isDigitB d := hds d (List.mem_cons_self d ds')
    show isValidNumberFormat (d :: (ds' ++ '.' :: fs)) = true ↔ _
    unfold isValidNumberFormat
    dsimp only
    rw [if_neg ?_]
    · dsimp only
      rw [show d :: (ds' ++ '.' :: fs) = (d :: ds') ++ '.' :: fs from rfl]
      rw [hbefore]
      dsimp only
      rw [if_pos rfl, hafter]
      dsimp only
      rw [if_neg (by simp), if_neg (by omega)]
      by_cases hbig : (d :: ds').length > 8 ∨ List.length fs > 3
      · rw [if_pos hbig]
        constructor
        · intro h
          simp at h
        · intro h
          exfalso
          omega
      · rw [if_neg hbig]
        push_neg at hbig
        constructor
        · intro h
          exact hbig
        · intro h
          rfl
    · rintro (he | he) <;>
        exact absurd hd (by rw [he]; decide)

/-- Half-even rounding lands on the floor or the ceiling. -/
theorem roundHalfEven_bounds (x : ℚ) :
    ⌊x⌋ ≤ roundHalfEven x ∧ roundHalfEven x ≤ ⌊x⌋ + 1 := by
  unfold roundHalfEven
  split_ifs <;> omega

/-- C6: `Number f` fails exactly when the canonical three-decimal rendering
of `f` violates the numeric-format rule; in particular it rejects NaN, both
infinities and every finite magnitude of at least `10^8`; every accepted
value renders as an optionally signed decimal with at most eight integer
digits and exactly three fraction digits, and a missing value renders as
the literal string `missing`. -/
theorem Number_spec (f : GoFloat) (hf : GoFloat.Wf f) :
    ((∃ v, Number f = .ok v) ↔ isValidNumberFormat (GoFloat.format f) = true) ∧
    Number .nan = .error .valueOutOfRange ∧
    (∀ b, Number (.inf b) = .error .valueOutOfRange) ∧
    (∀ b m, f = .finite b m → (10 : ℚ) ^ 8 ≤ m →
      Number f = .error .valueOutOfRange) ∧
    (∀ v, Number f = .ok v →
      ∃ sign ds fs, (sign = [] ∨ sign = ['-']) ∧
        ds ≠ [] ∧ ds.length ≤ 8 ∧ (∀ c ∈ ds, isDigitB c) ∧
        fs.length = 3 ∧ (∀ c ∈ fs, isDigitB c) ∧
        Value.str v = sign ++ ds ++ '.' :: fs) ∧
    Value.str Missing = "missing".toList := by
  have hstr : ∀ g : GoFloat, Value.str ⟨g, false⟩ = GoFloat.format g :=
    fun g => rfl
  have hok : ∀ g : GoFloat, isValidNumberFormat (GoFloat.format g) = true →
      Number g = .ok ⟨g, false⟩ := by
    intro g hg
    unfold Number
    rw [hstr g, if_pos hg]
  have herr : ∀ g : GoFloat, ¬ isValidNumberFormat (GoFloat.format g) = true →
      Number g = .error .valueOutOfRange := by
    intro g hg
    unfold Number
    rw [hstr g, if_neg hg]
  have hfmtfin : ∀ (b : Bool) (m : ℚ), GoFloat.format (.finite b m) =
      (if b then ['-'] else []) ++
        natDecimal ((roundHalfEven (1000 * m)).toNat / 1000) ++
        '.' :: pad3 ((roundHalfEven (1000 * m)).toNat % 1000) := by
    intro b m
    show (if b then ['-'] else []) ++ fmtFixed3 m = _
    rw [show fmtFixed3 m =
      natDecimal ((roundHalfEven (1000 * m)).toNat / 1000) ++
        '.' :: pad3 ((roundHalfEven (1000 * m)).toNat % 1000) from rfl]
    exact (List.append_assoc _ _ _).symm
  refine ⟨?_, ?_, ?_, ?_, ?_, rfl⟩
  · constructor
    · rintro ⟨v, hv⟩
      by_cases h : isValidNumberFormat (GoFloat.format f) = true
      · exact h
      · rw [herr f h] at hv
        exact absurd hv (by simp)
    · intro h
      exact ⟨⟨f, false⟩, hok f h⟩
  · exact herr .nan (by decide)
  · intro b
    cases b
    · exact herr (.inf false) (by decide)
    · exact herr (.inf true) (by decide)
  · rintro b m rfl hm
    have hfl : (10 ^ 11 : ℤ) ≤ ⌊(1000 : ℚ) * m⌋ := by
      apply Int.le_floor.mpr
      push_cast
      have h10 : (1000 : ℚ) * 10 ^ 8 = 10 ^ 11 := by norm_num
      nlinarith [hm]
    have h1 : (10 ^ 11 : ℤ) ≤ roundHalfEven (1000 * m) := by
      have h2 := (roundHalfEven_bounds ((1000 : ℚ) * m)).1
      omega
    have hq : 10 ^ 8 ≤ (roundHalfEven ((1000 : ℚ) * m)).toNat / 1000 := by
      omega
    have h9 := le_natDecimal_length 8 _ hq
    apply herr
    rw [hfmtfin b m]
    rw [isValidNumberFormat_shape b _ _ (natDecimal_ne_nil _)
      (natDecimal_digits _) (pad3_digits _)]
    rintro ⟨hle, -⟩
    omega
  · intro v hv
    have hvalid : isValidNumberFormat (GoFloat.format f) = true := by
      by_contra h
      rw [herr f h] at hv
      exact absurd hv (by simp)
    rw [hok f hvalid] at hv
    injection hv with h
    subst h
    cases f with
    | nan => exact absurd hvalid (by decide)
    | inf b => cases b <;> exact absurd hvalid (by decide)
    | finite b m =>
      rw [hfmtfin b m] at hvalid
      have hshape := (isValidNumberFormat_shape b _ _ (natDecimal_ne_nil _)
        (natDecimal_digits _) (pad3_digits _)).mp hvalid
      refine ⟨if b then ['-'] else [],
        natDecimal ((roundHalfEven (1000 * m)).toNat / 1000),
        pad3 ((roundHalfEven (1000 * m)).toNat % 1000),
        ?_, natDecimal_ne_nil _, hshape.1, natDecimal_digits _,
        pad3_length _, pad3_digits _, ?_⟩
      · cases b
        · exact Or.inl rfl
        · exact Or.inr rfl
      · rw [hstr, hfmtfin b m]

/-- Evaluation rule for the rational floor. -/
theorem floorQ_eval (q : ℚ) (z : ℤ) (h1 : (z : ℚ) ≤ q) (h2 : q < z + 1) :
    ⌊q⌋ = z := Int.floor_eq_iff.mpr ⟨h1, h2⟩

/-- Evaluation rule for half-even rounding below the midpoint. -/
theorem roundHalfEven_eq_floor {x : ℚ} {z : ℤ} (hfl : ⌊x⌋ = z)
    (h : x - z < 1 / 2) : roundHalfEven x = z := by
  unfold roundHalfEven
  rw [hfl, if_pos h]

/-- Evaluation rule for half-even rounding above the midpoint. -/
theorem roundHalfEven_eq_ceil {x : ℚ} {z : ℤ} (hfl : ⌊x⌋ = z)
    (h : 1 / 2 < x - z) : roundHalfEven x = z + 1 := by
  unfold roundHalfEven
  rw [hfl, if_neg (by linarith), if_pos h]

/-- A concrete run of the `Number` specification: the float `-1.0` is well
formed and accepted, and NaN is rejected. -/
theorem Number_spec_witness :
    GoFloat.Wf (.finite true 1) ∧
    (∃ v, Number (.finite true 1) = .ok v) ∧
    Number .nan = .error .valueOutOfRange := by
  have hwf : GoFloat.Wf (.finite true 1) := by
    show (0 : ℚ) ≤ 1
    norm_num
  have h := Number_spec (.finite true 1) hwf
  have hr : roundHalfEven ((1000 : ℚ) * 1) = 1000 := by
    apply roundHalfEven_eq_floor (z := 1000)
    · apply floorQ_eval <;> norm_num
    · norm_num
  have hfmt : GoFloat.format (.finite true 1) =
      '-' :: ('1' :: ('.' :: ('0' :: ('0' :: ['0'])))) := by
    unfold GoFloat.format fmtFixed3
    dsimp only
    rw [hr, natDecimal_unfold]
    decide
  exact ⟨hwf, h.1.mpr (by rw [hfmt]; decide), h.2.1⟩

/-- C10: on a value whose missing flag is unset, `Float64` returns the
stored number (never the panic branch, modelled by `none`); on a missing
value it hits the panic branch, so under the check-`IsMissing`-first
precondition the panic is unreachable. -/
theorem value_float64_spec (v : Value) :
    (Value.isMissing v = false → Value.float64? v = some v.value) ∧
    (Value.isMissing v = true → Value.float64? v = none) := by
  unfold Value.isMissing Value.float64?
  constructor
  · intro h
    rw [h]
    simp
  · intro h
    rw [h]
    simp

/-- A concrete run of the `Float64` specification: a present zero is
returned as stored, and the missing value hits the panic branch. -/
theorem value_float64_spec_witness :
    Value.float64? ⟨.finite false 0, false⟩ = some (.finite false 0) ∧
    Value.float64? Missing = none := by
  have h1 := value_float64_spec ⟨.finite false 0, false⟩
  have h2 := value_float64_spec Missing
  exact ⟨h1.1 rfl, h2.2 rfl⟩

/-! ### Round-trip machinery (claim C3) -/

/-- The values constructible through the public constructors: `Missing()`,
or a well-formed number accepted by `Number`. -/
def ValueCtor (v : Value) : Prop :=
  (v.missing = true → v = Missing) ∧
  (v.missing = false → GoFloat.Wf v.value ∧
    isValidNumberFormat (GoFloat.format v.value) = true)

/-- Payload-level syntactic validity: constructible values, a well-formed
aligned start time, and at least one series value. -/
def PayloadValid : Payload → Prop
  | .pointValue v => ValueCtor v
  | .timeSeries t vs =>
    DateTime.Wf t ∧ t.minute % timeStepMinutes = 0 ∧ vs ≠ [] ∧
      ∀ v ∈ vs, ValueCtor v

/-- A syntactically valid message: valid name, payload constructible
through the public constructors, and an encoding within the size limit. -/
def MessageValid (m : Message) : Prop :=
  validateName m.name = true ∧
  byteLen (Message.encode m) ≤ maxMessageBytes ∧
  PayloadValid m.payload

/-- The value produced by re-parsing a value's rendering: `Missing` stays,
a number is replaced by the exact rational of its three-decimal
rendering. -/
def canonValue (v : Value) : Value :=
  if v.missing then Missing
  else ⟨parseFloatQ (GoFloat.format v.value), false⟩

def canonPayload : Payload → Payload
  | .pointValue v => .pointValue (canonValue v)
  | .timeSeries t vs => .timeSeries t (vs.map canonValue)

/-- The message produced by re-parsing an encoding: same name and shape,
each value replaced by its re-parsed form. -/
def canonMessage (m : Message) : Message :=
  ⟨m.name, canonPayload m.payload⟩

/-- The finite-float rendering, decomposed. -/
theorem format_finite_eq (b : Bool) (m : ℚ) : GoFloat.format (.finite b m) =
    (if b then ['-'] else []) ++
      natDecimal ((roundHalfEven (1000 * m)).toNat / 1000) ++
      '.' :: pad3 ((roundHalfEven (1000 * m)).toNat % 1000) := by
  show (if b then ['-'] else []) ++ fmtFixed3 m = _
  rw [show fmtFixed3 m =
    natDecimal ((roundHalfEven (1000 * m)).toNat / 1000) ++
      '.' :: pad3 ((roundHalfEven (1000 * m)).toNat % 1000) from rfl]
  exact (List.append_assoc _ _ _).symm

theorem format_finite_chars (b : Bool) (m : ℚ) :
    ∀ c ∈ GoFloat.format (.finite b m), c = '-' ∨ c = '.' ∨ isDigitB c := by
  intro c hc
  rw [format_finite_eq] at hc
  rcases List.mem_append.mp hc with hc | hc
  · rcases List.mem_append.mp hc with hc | hc
    · cases b
      · simp at hc
      · simp at hc
        exact Or.inl hc
    · exact Or.inr (Or.inr (natDecimal_digits _ c hc))
  · rcases List.mem_cons.mp hc with hc | hc
    · exact Or.inr (Or.inl hc)
    · exact Or.inr (Or.inr (pad3_digits _ c hc))

theorem format_finite_head (b : Bool) (m : ℚ) :
    ∃ d ds, GoFloat.format (.finite b m) = d :: ds ∧ (d = '-' ∨ isDigitB d) := by
  rw [format_finite_eq]
  cases b
  · obtain ⟨d, ds, hnd, hd⟩ :=
      natDecimal_head_digit ((roundHalfEven (1000 * m)).toNat / 1000)
    refine ⟨d, ds ++ '.' :: pad3 ((roundHalfEven (1000 * m)).toNat % 1000),
      ?_, Or.inr hd⟩
    simp [hnd]
  · refine ⟨'-', natDecimal ((roundHalfEven (1000 * m)).toNat / 1000) ++
      '.' :: pad3 ((roundHalfEven (1000 * m)).toNat % 1000), ?_, Or.inl rfl⟩
    simp

/-- Only finite floats render in the valid number format. -/
theorem finite_of_valid_format {g : GoFloat}
    (h : isValidNumberFormat (GoFloat.format g) = true) :
    ∃ b m, g = .finite b m := by
  cases g with
  | nan => exact absurd h (by decide)
  | inf b => cases b <;> exact absurd h (by decide)
  | finite b m => exact ⟨b, m, rfl⟩

/-- The rendering of a constructible value is nonempty and consists of
printable, non-space, non-newline characters. -/
theorem valueStr_props {v : Value} (hv : ValueCtor v) :
    Value.str v ≠ [] ∧
      ∀ c ∈ Value.str v, c ≠ '\n' ∧ ¬ isGoSpace c ∧ ' ' ≤ c ∧ c ≤ '~' := by
  by_cases hm : v.missing = true
  · rw [hv.1 hm]
    exact ⟨by decide, by decide⟩
  · have hmiss : v.missing = false := by
      cases hq : v.missing
      · rfl
      · exact absurd hq hm
    obtain ⟨hwf, hval⟩ := hv.2 hmiss
    have hstr : Value.str v = GoFloat.format v.value := by
      unfold Value.str
      rw [hmiss]
      simp
    obtain ⟨b, mq, hg⟩ := finite_of_valid_format hval
    rw [hstr, hg]
    constructor
    · obtain ⟨d, ds, he, _⟩ := format_finite_head b mq
      rw [he]
      simp
    · intro c hc
      rcases format_finite_chars b mq c hc with rfl | rfl | hd
      · exact ⟨by decide, by decide, by decide, by decide⟩
      · exact ⟨by decide, by decide, by decide, by decide⟩
      · obtain ⟨h1, _, _, _, _, _, h7⟩ := digit_ne_specials hd
        rcases digit_printable hd with hp | hp
        · exact absurd hp h1
        · exact ⟨h1, h7, hp.1, hp.2⟩

/-- A nonempty all-clean-character string is a clean token. -/
theorem cleanToken_of_chars {v : GoStr} (hne : v ≠ [])
    (h : ∀ c ∈ v, c ≠ '\n' ∧ ¬ isGoSpace c) : CleanToken v := by
  refine ⟨hne, ?_, ?_, ?_⟩
  · intro hmem
    exact (h '\n' hmem).1 rfl
  · intro c hc
    exact (h c (List.mem_of_mem_head? hc)).2
  · intro c hc
    have hcm : c ∈ v.reverse :=
      List.mem_of_mem_head? (by rw [List.head?_reverse]; exact hc)
    exact (h c (List.mem_reverse.mp hcm)).2

/-- A found index decomposes the string around the character. -/
theorem goIndexOf_decomp : ∀ (s : GoStr) (t : Char) (i : Nat),
    goIndexOf s t = some i → s = s.take i ++ t :: s.drop (i + 1) := by
  intro s
  induction s with
  | nil =>
    intro t i h
    simp [goIndexOf] at h
  | cons c cs ih =>
    intro t i h
    unfold goIndexOf at h
    by_cases hc : c = t
    · rw [if_pos hc] at h
      injection h with h
      subst h
      subst hc
      simp
    · rw [if_neg hc] at h
      cases hq : goIndexOf cs t with
      | none =>
        rw [hq] at h
        simp at h
      | some j =>
        rw [hq] at h
        simp at h
        subst h
        have hdec := ih t j hq
        simp only [List.take_succ_cons, List.drop_succ_cons, List.cons_append]
        congr 1

theorem validateNamePart_props {s : GoStr} (h : validateNamePart s = true) :
    s ≠ [] ∧ ∀ c ∈ s, isNameChar c := by
  unfold validateNamePart at h
  simp only [decide_eq_true_eq, Bool.decide_and, Bool.and_eq_true,
    decide_eq_true_eq] at h
  obtain ⟨h1, _, h3⟩ := h
  exact ⟨h1, fun c hc => by
    have := List.all_eq_true.mp h3 c hc
    simpa using this⟩

/-- A validated name is nonempty and made of name characters and dots. -/
theorem validateName_chars {n : GoStr} (h : validateName n = true) :
    n ≠ [] ∧ ∀ c ∈ n, isNameChar c ∨ c = '.' := by
  unfold validateName at h
  by_cases hh : n.head? = some '.'
  · rw [if_pos hh] at h
    exact absurd h (by simp)
  · rw [if_neg hh] at h
    simp only [decide_eq_true_eq, Bool.decide_and, Bool.and_eq_true,
      Bool.decide_or, Bool.or_eq_true, decide_eq_true_eq] at h
    unfold splitName at h
    cases hq : goIndexOf n '.' with
    | none =>
      rw [hq] at h
      dsimp only at h
      obtain ⟨hvar, -⟩ := h
      obtain ⟨hne, hall⟩ := validateNamePart_props hvar
      exact ⟨hne, fun c hc => Or.inl (hall c hc)⟩
    | some i =>
      rw [hq] at h
      dsimp only at h
      have hdec := goIndexOf_decomp n '.' i hq
      obtain ⟨hvar, hmod⟩ := h
      obtain ⟨hvne, hvall⟩ := validateNamePart_props hvar
      rcases hmod with hmod | hmod
      · exfalso
        apply hh
        rw [hdec, hmod]
        rfl
      · obtain ⟨hmne, hmall⟩ := validateNamePart_props hmod
        constructor
        · exact List.ne_nil_of_mem (by rw [hdec]; simp : ('.') ∈ n)
        · intro c hc
          rw [hdec] at hc
          rcases List.mem_append.mp hc with hc | hc
          · exact Or.inl (hmall c hc)
          · rcases List.mem_cons.mp hc with rfl | hc
            · exact Or.inr rfl
            · exact Or.inl (hvall c hc)

/-- Splitting at newlines undoes the line-joining of the encoder. -/
theorem goSplitOn_line_decomp :
    ∀ (ls : List GoStr) (x : GoStr), (∀ c ∈ x, c ≠ '\n') →
      (∀ l ∈ ls, ∀ c ∈ l, c ≠ '\n') →
      goSplitOn '\n' (x ++ (ls.map (fun l => '\n' :: l)).flatten) = x :: ls := by
  intro ls
  induction ls with
  | nil =>
    intro x hx _
    simp only [List.map_nil, List.flatten_nil, List.append_nil]
    unfold goSplitOn
    exact splitBy_no_sep (fun c hc => by simpa using hx c hc)
  | cons l ls ih =>
    intro x hx hls
    have hre : (((l :: ls).map (fun s => '\n' :: s)).flatten) =
        '\n' :: (l ++ (ls.map (fun s => '\n' :: s)).flatten) := by
      simp
    rw [hre]
    unfold goSplitOn
    rw [splitBy_append_cons '\n' (by decide) _
      (fun c hc => by simpa using hx c hc)]
    congr 1
    have hres := ih l (fun c hc => hls l (List.mem_cons_self l ls) c hc)
      (fun y hy => hls y (List.mem_cons_of_mem l hy))
    unfold goSplitOn at hres
    exact hres

/-- `strings.Fields` on a canonical two-token header line. -/
theorem goFields_pair {a b : GoStr} (hane : a ≠ []) (hbne : b ≠ [])
    (ha : ∀ c ∈ a, ¬ isGoSpace c) (hb : ∀ c ∈ b, ¬ isGoSpace c) :
    goFields (a ++ ' ' :: b) = [a, b] := by
  unfold goFields
  rw [splitBy_append_cons ' ' (by decide) b ha]
  rw [splitBy_no_sep hb]
  simp [hane, hbne]

/-- The encoder's value loop, as a flat list of newline-prefixed lines. -/
theorem foldl_encValues (vs : List Value) :
    ∀ acc : GoStr, vs.foldl (fun a v => a ++ '\n' :: Value.str v) acc =
      acc ++ (vs.map (fun v => '\n' :: Value.str v)).flatten := by
  induction vs with
  | nil =>
    intro acc
    simp
  | cons v vs ih =>
    intro acc
    rw [List.foldl_cons, ih]
    simp

theorem encode_pointValue (name : GoStr) (v : Value) :
    Message.encode ⟨name, .pointValue v⟩ =
      (Payload.typeName (.pointValue v) ++ ' ' :: name) ++
        (([Value.str v]).map (fun l => '\n' :: l)).flatten := by
  unfold Message.encode Payload.encodePayload
  simp

theorem encode_timeSeries (name : GoStr) (t : DateTime) (vs : List Value) :
    Message.encode ⟨name, .timeSeries t vs⟩ =
      (Payload.typeName (.timeSeries t vs) ++ ' ' :: name) ++
        ((renderDateTime t :: vs.map Value.str).map
          (fun l => '\n' :: l)).flatten := by
  unfold Message.encode Payload.encodePayload
  dsimp only
  rw [foldl_encValues]
  simp only [List.map_cons, List.map_map, List.flatten_cons,
    List.nil_append, List.append_assoc, List.cons_append]
  rfl

/-- Half-even rounding fixes integers. -/
theorem roundHalfEven_intCast (z : ℤ) : roundHalfEven ((z : ℚ)) = z := by
  unfold roundHalfEven
  rw [Int.floor_intCast, sub_self]
  norm_num

/-- The exact rational of a rendered `digits.3digits` magnitude. -/
theorem parse_digits_dot_pad3 (n f : ℕ) (hf : f < 1000) :
    parseMagQ (natDecimal n ++ '.' :: pad3 f) = (n : ℚ) + (f : ℚ) / 1000 := by
  unfold parseMagQ
  have hsplit : goSplitOn '.' (natDecimal n ++ '.' :: pad3 f) =
      [natDecimal n, pad3 f] := by
    unfold goSplitOn
    rw [splitBy_append_cons '.' (by decide) _ (fun c hc => by
      simpa using (digit_ne_specials (natDecimal_digits n c hc)).2.2.1)]
    rw [splitBy_no_sep (fun c hc => by
      simpa using (digit_ne_specials (pad3_digits f c hc)).2.2.1)]
  rw [hsplit]
  dsimp only
  rw [digitsToNat_natDecimal, digitsToNat_pad3 hf, pad3_length]
  norm_num

/-- `strconv.ParseFloat` recovers the exact rational of the rendering of a
finite float. -/
theorem parseFloatQ_format_finite (b : Bool) (m : ℚ) :
    parseFloatQ (GoFloat.format (.finite b m)) =
      .finite b ((((roundHalfEven (1000 * m)).toNat / 1000 : ℕ) : ℚ) +
        (((roundHalfEven (1000 * m)).toNat % 1000 : ℕ) : ℚ) / 1000) := by
  rw [format_finite_eq]
  cases b
  · simp only [Bool.false_eq_true, if_false, List.nil_append]
    obtain ⟨d, ds, hnd, hd⟩ :=
      natDecimal_head_digit ((roundHalfEven (1000 * m)).toNat / 1000)
    rw [hnd, List.cons_append]
    unfold parseFloatQ
    dsimp only
    rw [if_neg (by simpa using (digit_ne_specials hd).2.2.2.1)]
    rw [if_neg (by simpa using (digit_ne_specials hd).2.2.2.2.1)]
    rw [← List.cons_append, ← hnd]
    rw [parse_digits_dot_pad3 _ _ (Nat.mod_lt _ (by norm_num))]
  · rw [if_pos rfl]
    simp only [List.cons_append, List.nil_append]
    unfold parseFloatQ
    dsimp only
    rw [if_pos rfl]
    rw [parse_digits_dot_pad3 _ _ (Nat.mod_lt _ (by norm_num))]

/-- Re-rendering the parsed rendering reproduces the rendering byte for
byte. -/
theorem format_canon (b : Bool) (m : ℚ) :
    GoFloat.format (parseFloatQ (GoFloat.format (.finite b m))) =
      GoFloat.format (.finite b m) := by
  rw [parseFloatQ_format_finite]
  have cast_arith : ∀ a c : ℕ, (1000 : ℚ) * ((a : ℚ) + (c : ℚ) / 1000) =
      (((1000 * a + c : ℕ) : ℤ) : ℚ) := by
    intro a c
    push_cast
    ring
  have harith := cast_arith ((roundHalfEven (1000 * m)).toNat / 1000)
    ((roundHalfEven (1000 * m)).toNat % 1000)
  have hr : roundHalfEven ((1000 : ℚ) *
      ((((roundHalfEven (1000 * m)).toNat / 1000 : ℕ) : ℚ) +
        (((roundHalfEven (1000 * m)).toNat % 1000 : ℕ) : ℚ) / 1000)) =
      ((1000 * ((roundHalfEven (1000 * m)).toNat / 1000) +
        (roundHalfEven (1000 * m)).toNat % 1000 : ℕ) : ℤ) := by
    rw [harith, roundHalfEven_intCast]
  have hNN : 1000 * ((roundHalfEven (1000 * m)).toNat / 1000) +
      (roundHalfEven (1000 * m)).toNat % 1000 =
      (roundHalfEven (1000 * m)).toNat := by
    omega
  rw [format_finite_eq, hr, Int.toNat_natCast, hNN, ← format_finite_eq]

/-- `parseValue` recovers the re-parsed form of a constructible value's
rendering. -/
theorem parseValue_str {v : Value} (hv : ValueCtor v) :
    parseValue (Value.str v) = .ok (canonValue v) := by
  by_cases hm : v.missing = true
  · rw [hv.1 hm]
    rfl
  · have hmiss : v.missing = false := by
      cases hq : v.missing
      · rfl
      · exact absurd hq hm
    obtain ⟨hwf, hval⟩ := hv.2 hmiss
    have hstr : Value.str v = GoFloat.format v.value := by
      unfold Value.str
      rw [hmiss]
      simp
    obtain ⟨b, mq, hg⟩ := finite_of_valid_format hval
    have hprops := valueStr_props hv
    have hclean : goTrimSpace (Value.str v) = Value.str v :=
      goTrimSpace_of_clean (cleanToken_of_chars hprops.1
        (fun c hc => ⟨(hprops.2 c hc).1, (hprops.2 c hc).2.1⟩))
    have hne : Value.str v ≠ "missing".toList := by
      rw [hstr, hg]
      obtain ⟨d, ds, he, hd⟩ := format_finite_head b mq
      rw [he]
      intro heq
      have hdm : d = 'm' := by
        injection heq
      rcases hd with rfl | hd
      · exact absurd hdm (by decide)
      · exact absurd hdm (digit_ne_specials hd).2.2.2.2.2.1
    unfold parseValue
    dsimp only
    rw [hclean, if_neg hne, if_neg (not_not_intro (hstr ▸ hval))]
    unfold canonValue
    rw [hmiss]
    rw [hstr]
    simp

theorem parseValues_map {vs : List Value} (h : ∀ v ∈ vs, ValueCtor v) :
    parseValues (vs.map Value.str) = .ok (vs.map canonValue) := by
  induction vs with
  | nil => rfl
  | cons v vs ih =>
    rw [List.map_cons, List.map_cons]
    unfold parseValues
    rw [parseValue_str (h v (List.mem_cons_self v vs))]
    dsimp only
    rw [ih (fun x hx => h x (List.mem_cons_of_mem v hx))]

/-- Re-parsing does not change the rendering of a constructible value. -/
theorem canonValue_str {v : Value} (hv : ValueCtor v) :
    Value.str (canonValue v) = Value.str v := by
  by_cases hm : v.missing = true
  · rw [hv.1 hm]
    rfl
  · have hmiss : v.missing = false := by
      cases hq : v.missing
      · rfl
      · exact absurd hq hm
    obtain ⟨hwf, hval⟩ := hv.2 hmiss
    obtain ⟨b, mq, hg⟩ := finite_of_valid_format hval
    have h1 : canonValue v = ⟨parseFloatQ (GoFloat.format v.value), false⟩ := by
      unfold canonValue
      rw [hmiss]
      simp
    have h2 : Value.str ⟨parseFloatQ (GoFloat.format v.value), false⟩ =
        GoFloat.format (parseFloatQ (GoFloat.format v.value)) := rfl
    have h3 : Value.str v = GoFloat.format v.value := by
      unfold Value.str
      rw [hmiss]
      simp
    rw [h1, h2, h3, hg, format_canon]

theorem pad2_digits (n : ℕ) : ∀ c ∈ pad2 n, isDigitB c := by
  intro c hc
  simp only [pad2, List.mem_cons, List.not_mem_nil, or_false] at hc
  rcases hc with rfl | rfl
  all_goals exact digitChar_isDigit _ (Nat.mod_lt _ (by norm_num))

theorem pad4_digits (n : ℕ) : ∀ c ∈ pad4 n, isDigitB c := by
  intro c hc
  simp only [pad4, List.mem_cons, List.not_mem_nil, or_false] at hc
  rcases hc with rfl | rfl | rfl | rfl
  all_goals exact digitChar_isDigit _ (Nat.mod_lt _ (by norm_num))

theorem digitsToNat_two (a b : ℕ) (ha : a < 10) (hb : b < 10) :
    digitsToNat [digitChar a, digitChar b] = a * 10 + b := by
  unfold digitsToNat
  rw [List.foldl_cons, List.foldl_cons, List.foldl_nil]
  rw [digitChar_toNat a ha, digitChar_toNat b hb]
  omega

theorem digitsToNat_four (a b c d : ℕ) (ha : a < 10) (hb : b < 10)
    (hc : c < 10) (hd : d < 10) :
    digitsToNat [digitChar a, digitChar b, digitChar c, digitChar d] =
      ((a * 10 + b) * 10 + c) * 10 + d := by
  unfold digitsToNat
  rw [List.foldl_cons, List.foldl_cons, List.foldl_cons, List.foldl_cons,
    List.foldl_nil]
  rw [digitChar_toNat a ha, digitChar_toNat b hb, digitChar_toNat c hc,
    digitChar_toNat d hd]
  omega

theorem daysInMonth_le (y m : ℕ) : daysInMonth y m ≤ 31 := by
  unfold daysInMonth
  split_ifs <;> omega

/-- Every character of a rendered timestamp. -/
theorem renderDateTime_chars (t : DateTime) :
    ∀ c ∈ renderDateTime t, isDigitB c ∨ c = '-' ∨ c = 'T' ∨ c = ':' := by
  intro c hc
  unfold renderDateTime at hc
  rcases List.mem_append.mp hc with hc | hc
  · exact Or.inl (pad4_digits _ c hc)
  · rcases List.mem_cons.mp hc with rfl | hc
    · exact Or.inr (Or.inl rfl)
    · rcases List.mem_append.mp hc with hc | hc
      · exact Or.inl (pad2_digits _ c hc)
      · rcases List.mem_cons.mp hc with rfl | hc
        · exact Or.inr (Or.inl rfl)
        · rcases List.mem_append.mp hc with hc | hc
          · exact Or.inl (pad2_digits _ c hc)
          · rcases List.mem_cons.mp hc with rfl | hc
            · exact Or.inr (Or.inr (Or.inl rfl))
            · rcases List.mem_append.mp hc with hc | hc
              · exact Or.inl (pad2_digits _ c hc)
              · rcases List.mem_cons.mp hc with rfl | hc
                · exact Or.inr (Or.inr (Or.inr rfl))
                · exact Or.inl (pad2_digits _ c hc)

theorem renderDateTime_ne_nil (t : DateTime) : renderDateTime t ≠ [] := by
  unfold renderDateTime pad4
  simp

/-- Parsing a rendered well-formed timestamp gives it back. -/
theorem parseDateTime_renderDateTime {t : DateTime} (ht : DateTime.Wf t) :
    parseDateTime (renderDateTime t) = some t := by
  obtain ⟨h1, h2, h3, h4, h5, h6, h7, h8⟩ := ht
  show parseDateTime
    [digitChar (t.year / 1000 % 10), digitChar (t.year / 100 % 10),
      digitChar (t.year / 10 % 10), digitChar (t.year % 10), '-',
      digitChar (t.month / 10 % 10), digitChar (t.month % 10), '-',
      digitChar (t.day / 10 % 10), digitChar (t.day % 10), 'T',
      digitChar (t.hour / 10 % 10), digitChar (t.hour % 10), ':',
      digitChar (t.minute / 10 % 10), digitChar (t.minute % 10)] = some t
  unfold parseDateTime
  dsimp only
  rw [if_pos ⟨rfl, rfl, rfl, rfl⟩]
  rw [if_pos (List.all_eq_true.mpr (fun x hx => by
    simp only [List.mem_cons, List.not_mem_nil, or_false] at hx
    rcases hx with rfl | rfl | rfl | rfl | rfl | rfl | rfl | rfl | rfl |
      rfl | rfl | rfl
    all_goals exact digitChar_isDigit _ (Nat.mod_lt _ (by norm_num))))]
  have hy : digitsToNat [digitChar (t.year / 1000 % 10),
      digitChar (t.year / 100 % 10), digitChar (t.year / 10 % 10),
      digitChar (t.year % 10)] = t.year := by
    rw [digitsToNat_four _ _ _ _ (Nat.mod_lt _ (by norm_num))
      (Nat.mod_lt _ (by norm_num)) (Nat.mod_lt _ (by norm_num))
      (Nat.mod_lt _ (by norm_num))]
    omega
  have hmo : digitsToNat [digitChar (t.month / 10 % 10),
      digitChar (t.month % 10)] = t.month := by
    rw [digitsToNat_two _ _ (Nat.mod_lt _ (by norm_num))
      (Nat.mod_lt _ (by norm_num))]
    omega
  have hda : digitsToNat [digitChar (t.day / 10 % 10),
      digitChar (t.day % 10)] = t.day := by
    have h31 := daysInMonth_le t.year t.month
    rw [digitsToNat_two _ _ (Nat.mod_lt _ (by norm_num))
      (Nat.mod_lt _ (by norm_num))]
    omega
  have hho : digitsToNat [digitChar (t.hour / 10 % 10),
      digitChar (t.hour % 10)] = t.hour := by
    rw [digitsToNat_two _ _ (Nat.mod_lt _ (by norm_num))
      (Nat.mod_lt _ (by norm_num))]
    omega
  have hmi : digitsToNat [digitChar (t.minute / 10 % 10),
      digitChar (t.minute % 10)] = t.minute := by
    rw [digitsToNat_two _ _ (Nat.mod_lt _ (by norm_num))
      (Nat.mod_lt _ (by norm_num))]
    omega
  rw [hy, hmo, hda, hho, hmi]
  rw [if_pos ⟨h3, h4, h5, h6, h7, h8⟩]

/-- Every character of a valid encoding is printable ASCII or newline. -/
theorem encode_chars {nm : GoStr} {p : Payload}
    (hname : validateName nm = true) (hpay : PayloadValid p) :
    ∀ c ∈ Message.encode ⟨nm, p⟩, c = '\n' ∨ (' ' ≤ c ∧ c ≤ '~') := by
  intro c hc
  unfold Message.encode at hc
  have hdigit : ∀ d : Char, isDigitB d → c = d → c = '\n' ∨ (' ' ≤ c ∧ c ≤ '~') :=
    fun d hd he => he ▸ digit_printable hd
  rcases List.mem_append.mp hc with hc | hc
  · cases p with
    | pointValue v =>
      have hbound : ∀ x ∈ ("pointvalue".toList : GoStr),
          x = '\n' ∨ (' ' ≤ x ∧ x ≤ '~') := by decide
      exact hbound c hc
    | timeSeries t vs =>
      have hbound : ∀ x ∈ ("timeseries".toList : GoStr),
          x = '\n' ∨ (' ' ≤ x ∧ x ≤ '~') := by decide
      exact hbound c hc
  · rcases List.mem_cons.mp hc with rfl | hc
    · exact Or.inr (by decide)
    · rcases List.mem_append.mp hc with hc | hc
      · rcases (validateName_chars hname).2 c hc with h | rfl
        · exact (nameChar_props h).1
        · exact Or.inr (by decide)
      · rcases List.mem_cons.mp hc with rfl | hc
        · exact Or.inl rfl
        · cases p with
          | pointValue v =>
            have hvc : ValueCtor v := hpay
            exact Or.inr ((valueStr_props hvc).2 c hc).2.2
          | timeSeries t vs =>
            obtain ⟨-, -, -, hall⟩ := hpay
            dsimp only [Payload.encodePayload] at hc
            rw [foldl_encValues, List.nil_append] at hc
            rcases List.mem_append.mp hc with hc | hc
            · rcases renderDateTime_chars t c hc with h | rfl | rfl | rfl
              · exact digit_printable h
              · exact Or.inr (by decide)
              · exact Or.inr (by decide)
              · exact Or.inr (by decide)
            · obtain ⟨l, hl, hcl⟩ := List.mem_flatten.mp hc
              obtain ⟨v, hv, rfl⟩ := List.mem_map.mp hl
              rcases List.mem_cons.mp hcl with rfl | hcl
              · exact Or.inl rfl
              · exact Or.inr ((valueStr_props (hall v hv)).2 c hcl).2.2

theorem encode_printable {nm : GoStr} {p : Payload}
    (hname : validateName nm = true) (hpay : PayloadValid p) :
    isPrintableASCII (Message.encode ⟨nm, p⟩) = true := by
  unfold isPrintableASCII
  rw [List.all_eq_true]
  intro c hc
  simpa using encode_chars hname hpay c hc

/-- The core of the round trip: parsing a valid encoding succeeds and
yields the canonical message, whose encoding is byte-identical. -/
theorem parse_encode_ok {m : Message} (hm : MessageValid m) :
    Parse (Message.encode m) = .ok (canonMessage m) ∧
    Message.encode (canonMessage m) = Message.encode m := by
  obtain ⟨hname, hsize, hpay⟩ := hm
  obtain ⟨nm, p⟩ := m
  dsimp only at hname hsize hpay
  have hnamechars : ∀ c ∈ nm, ¬ isGoSpace c ∧ c ≠ '\n' := by
    intro c hc
    rcases (validateName_chars hname).2 c hc with h | rfl
    · exact ⟨(nameChar_props h).2.2, (nameChar_props h).2.1⟩
    · exact ⟨by decide, by decide⟩
  have hnm_ne : nm ≠ [] := (validateName_chars hname).1
  have hprn := encode_printable hname hpay
  cases p with
  | pointValue v =>
    have hvc : ValueCtor v := hpay
    have hsp := valueStr_props hvc
    have htn : Payload.typeName (.pointValue v) = "pointvalue".toList := rfl
    have hhead : ∀ c ∈ Payload.typeName (.pointValue v) ++ ' ' :: nm,
        c ≠ '\n' := by
      intro c hc
      rcases List.mem_append.mp hc with hc | hc
      · rw [htn] at hc
        have hb : ∀ x ∈ ("pointvalue".toList : GoStr), x ≠ '\n' := by decide
        exact hb c hc
      · rcases List.mem_cons.mp hc with rfl | hc
        · decide
        · exact (hnamechars c hc).2
    have hsplit :
        removeTrailingEmpty (goSplitOn '\n'
          (Message.encode ⟨nm, .pointValue v⟩)) =
        (Payload.typeName (.pointValue v) ++ ' ' :: nm) :: [Value.str v] := by
      rw [encode_pointValue, goSplitOn_line_decomp _ _ hhead
        (fun l hl c hc => by
          rw [List.mem_singleton] at hl
          exact (hsp.2 c (hl ▸ hc)).1)]
      refine removeTrailingEmpty_eq ?_
      intro l hl
      rcases List.mem_cons.mp hl with rfl | hl
      · simp [htn]
      · rw [List.mem_singleton] at hl
        exact hl ▸ hsp.1
    have hfields : goFields (Payload.typeName (.pointValue v) ++ ' ' :: nm) =
        [Payload.typeName (.pointValue v), nm] := by
      refine goFields_pair (by simp [htn]) hnm_ne ?_
        (fun c hc => (hnamechars c hc).1)
      rw [htn]
      decide
    have hpv : parsePointValue [Value.str v] =
        .ok (.pointValue (canonValue v)) := by
      unfold parsePointValue
      dsimp only
      rw [parseValue_str hvc]
    constructor
    · unfold Parse
      rw [if_neg (by omega), if_neg (not_not_intro hprn), hsplit]
      dsimp only
      rw [hfields]
      dsimp only
      rw [if_neg (not_not_intro hname), if_pos (htn ▸ rfl), hpv]
      rfl
    · show Message.encode ⟨nm, .pointValue (canonValue v)⟩ = _
      unfold Message.encode Payload.encodePayload Payload.typeName
      dsimp only
      rw [canonValue_str hvc]
  | timeSeries t vs =>
    obtain ⟨hwf, hmin, hvs, hall⟩ := hpay
    have htn : Payload.typeName (.timeSeries t vs) = "timeseries".toList := rfl
    have hhead : ∀ c ∈ Payload.typeName (.timeSeries t vs) ++ ' ' :: nm,
        c ≠ '\n' := by
      intro c hc
      rcases List.mem_append.mp hc with hc | hc
      · rw [htn] at hc
        have hb : ∀ x ∈ ("timeseries".toList : GoStr), x ≠ '\n' := by decide
        exact hb c hc
      · rcases List.mem_cons.mp hc with rfl | hc
        · decide
        · exact (hnamechars c hc).2
    have hlinechars : ∀ l ∈ renderDateTime t :: vs.map Value.str,
        ∀ c ∈ l, c ≠ '\n' := by
      intro l hl c hc
      rcases List.mem_cons.mp hl with rfl | hl
      · rcases renderDateTime_chars t c hc with h | rfl | rfl | rfl
        · exact (digit_ne_specials h).1
        · decide
        · decide
        · decide
      · obtain ⟨v, hv, rfl⟩ := List.mem_map.mp hl
        exact ((valueStr_props (hall v hv)).2 c hc).1
    have hsplit :
        removeTrailingEmpty (goSplitOn '\n'
          (Message.encode ⟨nm, .timeSeries t vs⟩)) =
        (Payload.typeName (.timeSeries t vs) ++ ' ' :: nm) ::
          (renderDateTime t :: vs.map Value.str) := by
      rw [encode_timeSeries, goSplitOn_line_decomp _ _ hhead hlinechars]
      refine removeTrailingEmpty_eq ?_
      intro l hl
      rcases List.mem_cons.mp hl with rfl | hl
      · simp [htn]
      · rcases List.mem_cons.mp hl with rfl | hl
        · exact renderDateTime_ne_nil t
        · obtain ⟨v, hv, rfl⟩ := List.mem_map.mp hl
          exact (valueStr_props (hall v hv)).1
    have hfields : goFields (Payload.typeName (.timeSeries t vs) ++ ' ' :: nm) =
        [Payload.typeName (.timeSeries t vs), nm] := by
      refine goFields_pair (by simp [htn]) hnm_ne ?_
        (fun c hc => (hnamechars c hc).1)
      rw [htn]
      decide
    have hts : parseTimeSeries (renderDateTime t :: vs.map Value.str) =
        .ok (.timeSeries t (vs.map canonValue)) := by
      obtain ⟨v0, vs', rfl⟩ := List.exists_cons_of_ne_nil hvs
      rw [List.map_cons]
      unfold parseTimeSeries
      dsimp only
      rw [parseDateTime_renderDateTime hwf]
      dsimp only
      rw [if_neg (fun hn => hn hmin)]
      rw [← List.map_cons, parseValues_map hall]
    constructor
    · unfold Parse
      rw [if_neg (by omega), if_neg (not_not_intro hprn), hsplit]
      dsimp only
      rw [hfields]
      dsimp only
      rw [if_neg (not_not_intro hname),
        if_neg (by rw [htn]; decide), if_pos (htn ▸ rfl), hts]
      rfl
    · show Message.encode ⟨nm, .timeSeries t (vs.map canonValue)⟩ = _
      unfold Message.encode Payload.encodePayload Payload.typeName
      dsimp only
      rw [foldl_encValues, foldl_encValues, List.map_map]
      have hcongr : vs.map ((fun v => '\n' :: Value.str v) ∘ canonValue) =
          vs.map (fun v => '\n' :: Value.str v) := by
        refine List.map_congr_left ?_
        intro v hv
        simp only [Function.comp_apply]
        rw [canonValue_str (hall v hv)]
      rw [hcongr]

/-- C3 (corrected): for every syntactically valid message, parsing the
encoding succeeds and yields the canonical message (same name and shape,
each number replaced by the exact value of its three-decimal rendering),
re-encoding reproduces the original encoding byte for byte, and
`Parse (Encode m) = m` holds exactly on messages equal to their canonical
form; a number with more than three decimals breaks the identity. -/
theorem roundtrip_spec (m : Message) (hm : MessageValid m) :
    Parse (Message.encode m) = .ok (canonMessage m) ∧
    Message.encode (canonMessage m) = Message.encode m ∧
    (canonMessage m = m → Parse (Message.encode m) = .ok m) := by
  obtain ⟨h1, h2⟩ := parse_encode_ok hm
  exact ⟨h1, h2, fun h => by rw [h1, h]⟩

/-- A concrete run of the round-trip specification: a `pointvalue` message
with a missing value parses back to itself from its own encoding. -/
theorem roundtrip_spec_witness :
    MessageValid ⟨['a'], .pointValue Missing⟩ ∧
    Parse (Message.encode ⟨['a'], .pointValue Missing⟩) =
      .ok ⟨['a'], .pointValue Missing⟩ := by
  have hval : MessageValid ⟨['a'], .pointValue Missing⟩ := by
    refine ⟨by decide, by decide, ?_⟩
    exact ⟨fun _ => rfl, fun h => absurd h (by decide)⟩
  have h := roundtrip_spec _ hval
  exact ⟨hval, h.2.2 rfl⟩

/-- C3 counterexample to the claim as stated: the float `0.1234` is
accepted by `Number` and yields a syntactically valid message, but parsing
its encoding does not return an equal message (the stored value becomes
`0.123`). -/
theorem roundtrip_counterexample :
    Number (.finite false (617 / 5000)) =
      .ok ⟨.finite false (617 / 5000), false⟩ ∧
    MessageValid ⟨['a'], .pointValue ⟨.finite false (617 / 5000), false⟩⟩ ∧
    Parse (Message.encode
        ⟨['a'], .pointValue ⟨.finite false (617 / 5000), false⟩⟩) ≠
      .ok ⟨['a'], .pointValue ⟨.finite false (617 / 5000), false⟩⟩ := by
  have hval123 : roundHalfEven ((1000 : ℚ) * (617 / 5000)) = 123 := by
    apply roundHalfEven_eq_floor (z := 123)
    · apply floorQ_eval <;> norm_num
    · norm_num
  have hfmt : GoFloat.format (.finite false (617 / 5000 : ℚ)) =
      ['0', '.', '1', '2', '3'] := by
    rw [format_finite_eq, hval123, natDecimal_unfold]
    decide
  have hvalid : isValidNumberFormat
      (GoFloat.format (.finite false (617 / 5000 : ℚ))) = true := by
    rw [hfmt]
    decide
  have hnum : Number (.finite false (617 / 5000)) =
      .ok ⟨.finite false (617 / 5000), false⟩ := by
    unfold Number
    rw [if_pos (show isValidNumberFormat
      (Value.str ⟨.finite false (617 / 5000), false⟩) = true from hvalid)]
  have hctor : ValueCtor ⟨.finite false (617 / 5000), false⟩ := by
    refine ⟨fun h => absurd h (by decide), fun _ => ⟨?_, hvalid⟩⟩
    show (0 : ℚ) ≤ 617 / 5000
    norm_num
  have henc : Message.encode
      ⟨['a'], .pointValue ⟨.finite false (617 / 5000), false⟩⟩ =
      ("pointvalue a".toList ++ '\n' :: ['0', '.', '1', '2', '3']) := by
    unfold Message.encode Payload.encodePayload Payload.typeName
    dsimp only
    rw [show Value.str ⟨.finite false (617 / 5000), false⟩ =
      GoFloat.format (.finite false (617 / 5000 : ℚ)) from rfl, hfmt]
    decide
  have hmv : MessageValid
      ⟨['a'], .pointValue ⟨.finite false (617 / 5000), false⟩⟩ := by
    refine ⟨by decide, ?_, hctor⟩
    rw [henc]
    decide
  refine ⟨hnum, hmv, ?_⟩
  intro hpe
  have h1 := (parse_encode_ok hmv).1
  rw [hpe] at h1
  injection h1 with h2
  injection h2 with hn hp
  injection hp with hv
  have hcv : canonValue ⟨.finite false (617 / 5000), false⟩ =
      ⟨parseFloatQ (GoFloat.format (.finite false (617 / 5000 : ℚ))),
        false⟩ := rfl
  have hpf := parseFloatQ_format_finite false (617 / 5000 : ℚ)
  rw [hval123] at hpf
  rw [hpf] at hcv
  rw [hcv] at hv
  injection hv with hgf
  injection hgf with hneg hmag
  have : (617 / 5000 : ℚ) ≠
      ((((123 : ℤ).toNat / 1000 : ℕ) : ℚ) +
        (((123 : ℤ).toNat % 1000 : ℕ) : ℚ) / 1000) := by
    rw [show (123 : ℤ).toNat = 123 from rfl]
    norm_num
  exact this hmag

/-! ### Stream reader machinery (claim C7) -/

theorem splitBy_cons_sep {p : Char → Bool} {sep : Char} (hsep : p sep)
    (rest : GoStr) : splitBy p (sep :: rest) = [] :: splitBy p rest := by
  rw [splitBy_cons]
  cases h : splitBy p rest with
  | nil => exact absurd h (splitBy_ne_nil p rest)
  | cons l ls => simp [hsep]

theorem splitBy_append_sep {p : Char → Bool} {sep : Char} (hsep : p sep) :
    ∀ a : GoStr, splitBy p (a ++ [sep]) = splitBy p a ++ [[]] := by
  intro a
  induction a with
  | nil =>
    rw [List.nil_append]
    rw [splitBy_cons_sep hsep]
    rfl
  | cons c cs ih =>
    rw [List.cons_append, splitBy_cons, ih, splitBy_cons]
    cases h : splitBy p cs with
    | nil => exact absurd h (splitBy_ne_nil p cs)
    | cons l ls =>
      dsimp only
      split_ifs <;> simp

theorem removeTrailingEmpty_append_nil (ls : List GoStr) :
    removeTrailingEmpty (ls ++ [[]]) = removeTrailingEmpty ls := by
  unfold removeTrailingEmpty
  rw [List.reverse_append]
  rw [show ([[]] : List GoStr).reverse = [[]] from rfl, List.singleton_append]
  rw [List.dropWhile_cons, if_pos (by decide)]

/-- Appending one newline to a message within the size budget does not
change how it parses. -/
theorem Parse_append_newline (data : GoStr)
    (hsz : byteLen data + 1 ≤ maxMessageBytes) :
    Parse (data ++ ['\n']) = Parse data := by
  have hb : byteLen (data ++ ['\n']) = byteLen data + 1 := by
    rw [byteLen_append]
    rfl
  have hpr : isPrintableASCII (data ++ ['\n']) = isPrintableASCII data := by
    unfold isPrintableASCII
    rw [List.all_append]
    rw [show (List.all ['\n'] fun c =>
      decide (c = '\n' ∨ (' ' ≤ c ∧ c ≤ '~'))) = true from by decide]
    rw [Bool.and_true]
  have hl : goSplitOn '\n' (data ++ ['\n']) = goSplitOn '\n' data ++ [[]] := by
    unfold goSplitOn
    exact splitBy_append_sep (by decide) data
  unfold Parse
  rw [hb, hpr, hl, removeTrailingEmpty_append_nil]
  rw [if_neg (show ¬ byteLen data + 1 > maxMessageBytes by omega)]
  rw [if_neg (show ¬ byteLen data > maxMessageBytes by omega)]

theorem byteLen_flat_lines (pls : List GoStr) :
    byteLen ((pls.map (fun l => '\n' :: l)).flatten) =
      (pls.map (fun l => byteLen l + 1)).sum := by
  induction pls with
  | nil => rfl
  | cons l ls ih =>
    rw [List.map_cons, List.flatten_cons, byteLen_append, byteLen_cons, ih,
      List.map_cons, List.sum_cons]
    rw [show ('\n').utf8Size = 1 from rfl]
    omega

theorem byteLen_replicate (n : ℕ) (c : Char) :
    byteLen (List.replicate n c) = n * c.utf8Size := by
  induction n with
  | zero => simp [byteLen]
  | succ n ih =>
    rw [List.replicate_succ, byteLen_cons, ih]
    ring

theorem cons_flatten_shift (pls : List GoStr) :
    '\n' :: ((pls.map (fun l => l ++ ['\n'])).flatten) =
      ((pls.map (fun l => '\n' :: l)).flatten) ++ ['\n'] := by
  induction pls with
  | nil => rfl
  | cons l ls ih =>
    simp only [List.map_cons, List.flatten_cons, List.cons_append,
      List.append_assoc, List.singleton_append]
    rw [← ih, List.nil_append]

/-- The reader's accumulation loop on a full message followed by the blank
separator, within the size budget. -/
theorem readBody_ok : ∀ (ls : List GoStr) (buf : GoStr),
    (∀ l ∈ ls, l ≠ []) →
    byteLen buf + (ls.map (fun l => byteLen l + 1)).sum ≤ maxMessageBytes →
    readBody buf (byteLen buf) (ls ++ [[]]) =
      (.ok (buf ++ (ls.map (fun l => l ++ ['\n'])).flatten),
        ([] : List GoStr)) := by
  intro ls
  induction ls with
  | nil =>
    intro buf _ _
    simp only [List.nil_append, List.map_nil, List.flatten_nil,
      List.append_nil]
    rfl
  | cons l ls ih =>
    intro buf hne hsz
    rw [List.map_cons, List.sum_cons] at hsz
    rw [List.cons_append]
    unfold readBody
    rw [if_neg (hne l (List.mem_cons_self l ls))]
    rw [if_neg (show ¬ byteLen buf + byteLen l + 1 > maxMessageBytes by
      omega)]
    have hblen : byteLen buf + byteLen l + 1 = byteLen (buf ++ l ++ ['\n']) := by
      rw [byteLen_append, byteLen_append]
      rfl
    rw [hblen]
    rw [ih (buf ++ l ++ ['\n'])
      (fun x hx => hne x (List.mem_cons_of_mem l hx))
      (by rw [byteLen_append, byteLen_append,
        show byteLen ['\n'] = 1 from rfl]; omega)]
    rw [List.map_cons, List.flatten_cons]
    simp [List.append_assoc]

/-- The reader's accumulation loop fails as soon as the running buffer
would exceed the size budget. -/
theorem readBody_overflow : ∀ (ls : List GoStr) (buf : GoStr)
    (rest : List GoStr), ls ≠ [] → (∀ l ∈ ls, l ≠ []) →
    byteLen buf + (ls.map (fun l => byteLen l + 1)).sum > maxMessageBytes →
    ∃ rem, readBody buf (byteLen buf) (ls ++ rest) =
      (.error .messageTooLarge, rem) := by
  intro ls
  induction ls with
  | nil =>
    intro buf rest h
    exact absurd rfl h
  | cons l ls ih =>
    intro buf rest _ hne hsz
    rw [List.map_cons, List.sum_cons] at hsz
    rw [List.cons_append]
    unfold readBody
    rw [if_neg (hne l (List.mem_cons_self l ls))]
    by_cases hbig : byteLen buf + byteLen l + 1 > maxMessageBytes
    · exact ⟨ls ++ rest, by rw [if_pos hbig]⟩
    · rw [if_neg hbig]
      have hlsne : ls ≠ [] := by
        intro h
        subst h
        rw [List.map_nil, List.sum_nil] at hsz
        omega
      have hblen : byteLen buf + byteLen l + 1 =
          byteLen (buf ++ l ++ ['\n']) := by
        rw [byteLen_append, byteLen_append]
        rfl
      rw [hblen]
      exact ih (buf ++ l ++ ['\n']) rest hlsne
        (fun x hx => hne x (List.mem_cons_of_mem l hx))
        (by rw [byteLen_append, byteLen_append,
          show byteLen ['\n'] = 1 from rfl]; omega)

/-- The scanner's tokens for a framed single-message stream: two empty
tokens, the message lines, one empty token. -/
theorem scanNewlineTokens_framed (hd : GoStr) (pls : List GoStr)
    (hhd_nl : ∀ c ∈ hd, c ≠ '\n')
    (hpls_nl : ∀ l ∈ pls, ∀ c ∈ l, c ≠ '\n') :
    scanNewlineTokens ('\n' :: '\n' ::
      ((hd ++ (pls.map (fun l => '\n' :: l)).flatten) ++ ['\n', '\n'])) =
    [] :: [] :: hd :: (pls ++ [[]]) := by
  have hre : (hd ++ (pls.map (fun l => '\n' :: l)).flatten) ++ ['\n', '\n'] =
      hd ++ ((pls ++ [[], []]).map (fun l => '\n' :: l)).flatten := by
    rw [List.map_append, List.flatten_append, List.append_assoc]
    rfl
  have hsplit : goSplitOn '\n' ('\n' :: '\n' ::
      ((hd ++ (pls.map (fun l => '\n' :: l)).flatten) ++ ['\n', '\n'])) =
      [] :: [] :: hd :: (pls ++ [[], []]) := by
    unfold goSplitOn
    rw [splitBy_cons_sep (by decide), splitBy_cons_sep (by decide)]
    rw [hre]
    have hdec := goSplitOn_line_decomp (pls ++ [[], []]) hd hhd_nl
      (fun l hl c hc => by
        rcases List.mem_append.mp hl with hl | hl
        · exact hpls_nl l hl c hc
        · rcases List.mem_cons.mp hl with rfl | hl
          · simp at hc
          · rw [List.mem_singleton] at hl
            subst hl
            simp at hc)
    unfold goSplitOn at hdec
    rw [hdec]
  unfold scanNewlineTokens
  rw [if_neg (by simp)]
  dsimp only
  rw [hsplit]
  have hassoc : ([] : GoStr) :: [] :: hd :: (pls ++ [[], []]) =
      (([] : GoStr) :: [] :: hd :: (pls ++ [[]])) ++ [[]] := by
    simp
  rw [hassoc, List.getLast?_concat, if_pos rfl, List.dropLast_concat]

/-- `Reader.Read` on a token stream starting with two blank lines and a
nonempty line. -/
theorem readerRead_cons (hd : GoStr) (rest : List GoStr) (hne : hd ≠ []) :
    readerRead ([] :: [] :: hd :: rest) =
      (match readBody (hd ++ ['\n']) (byteLen hd + 1) rest with
       | (.error e, rem) => (.failed e, rem)
       | (.ok buf, rem) =>
         match Parse buf with
         | .ok m => (.msg m, rem)
         | .error e => (.failed e, rem)) := by
  unfold readerRead
  rw [List.dropWhile_cons, if_pos (by decide), List.dropWhile_cons,
    if_pos (by decide), List.dropWhile_cons, if_neg (by simpa using hne)]

/-! ### The boundary-size messages (claim C7) -/

/-- The zero value `0.000`, as built by `Number(0)`. -/
def zeroValue : Value := ⟨.finite false 0, false⟩

/-- A five-minute-aligned start time. -/
def tsStart : DateTime := ⟨2025, 12, 6, 8, 0⟩

/-- A `timeseries` message whose encoding has `9994 + len(name)` bytes. -/
def bigMsg (nm : GoStr) : Message :=
  ⟨nm, .timeSeries tsStart (List.replicate 1661 zeroValue)⟩

theorem zeroValue_round : roundHalfEven ((1000 : ℚ) * 0) = 0 := by
  apply roundHalfEven_eq_floor (z := 0)
  · apply floorQ_eval <;> norm_num
  · norm_num

theorem zeroValue_str : Value.str zeroValue = ['0', '.', '0', '0', '0'] := by
  show GoFloat.format (.finite false 0) = _
  rw [format_finite_eq, zeroValue_round, natDecimal_unfold]
  decide

theorem zeroValue_ctor : ValueCtor zeroValue := by
  refine ⟨fun h => absurd h (by decide), fun _ => ⟨le_refl 0, ?_⟩⟩
  show isValidNumberFormat (Value.str zeroValue) = true
  rw [zeroValue_str]
  decide

theorem zeroValue_canon : canonValue zeroValue = zeroValue := by
  have h1 : canonValue zeroValue =
      ⟨parseFloatQ (GoFloat.format (.finite false 0)), false⟩ := rfl
  have hpf := parseFloatQ_format_finite false 0
  rw [zeroValue_round] at hpf
  rw [h1, hpf]
  unfold zeroValue
  have : ((((0 : ℤ).toNat / 1000 : ℕ) : ℚ) +
      (((0 : ℤ).toNat % 1000 : ℕ) : ℚ) / 1000) = 0 := by
    rw [show (0 : ℤ).toNat = 0 from rfl]
    norm_num
  rw [this]

/-- The message lines of `bigMsg`. -/
theorem bigMsg_lines (nm : GoStr) :
    Message.encode (bigMsg nm) =
      (("timeseries".toList ++ ' ' :: nm) ++
        ((renderDateTime tsStart :: List.replicate 1661 ['0', '.', '0', '0', '0']).map
          (fun l => '\n' :: l)).flatten) := by
  rw [show bigMsg nm = ⟨nm, .timeSeries tsStart (List.replicate 1661 zeroValue)⟩
    from rfl]
  rw [encode_timeSeries]
  rw [List.map_replicate, zeroValue_str]
  rfl

theorem bigMsg_byteLen (nm : GoStr) :
    byteLen (Message.encode (bigMsg nm)) = 9994 + byteLen nm := by
  rw [bigMsg_lines, byteLen_append, byteLen_append, byteLen_cons,
    byteLen_flat_lines]
  rw [List.map_cons, List.sum_cons, List.map_replicate, List.sum_replicate]
  rw [show byteLen ("timeseries".toList) = 10 from by decide]
  rw [show (' ').utf8Size = 1 from rfl]
  rw [show byteLen (renderDateTime tsStart) = 16 from by decide]
  rw [show byteLen ['0', '.', '0', '0', '0'] + 1 = 6 from by decide]
  rw [smul_eq_mul]
  omega

theorem bigMsg_valid (nm : GoStr) (hn : validateName nm = true)
    (hsz : byteLen (Message.encode (bigMsg nm)) ≤ maxMessageBytes) :
    MessageValid (bigMsg nm) := by
  refine ⟨hn, hsz, ?_, by decide, ?_, ?_⟩
  · decide
  · intro h
    have := congrArg List.length h
    simp at this
  · intro v hv
    rw [List.eq_of_mem_replicate hv]
    exact zeroValue_ctor

theorem bigMsg_canon (nm : GoStr) : canonMessage (bigMsg nm) = bigMsg nm := by
  unfold canonMessage canonPayload bigMsg
  dsimp only
  rw [List.map_replicate, zeroValue_canon]

theorem bigMsg_parse (nm : GoStr) (hn : validateName nm = true)
    (hsz : byteLen (Message.encode (bigMsg nm)) ≤ maxMessageBytes) :
    Parse (Message.encode (bigMsg nm)) = .ok (bigMsg nm) := by
  have h := (parse_encode_ok (bigMsg_valid nm hn hsz)).1
  rw [bigMsg_canon] at h
  exact h

theorem bigMsg_head_chars (nm : GoStr) (hn : validateName nm = true) :
    ∀ c ∈ "timeseries".toList ++ ' ' :: nm, c ≠ '\n' := by
  intro c hc
  rcases List.mem_append.mp hc with hc | hc
  · have hb : ∀ x ∈ ("timeseries".toList : GoStr), x ≠ '\n' := by decide
    exact hb c hc
  · rcases List.mem_cons.mp hc with rfl | hc
    · decide
    · rcases (validateName_chars hn).2 c hc with h | rfl
      · exact (nameChar_props h).2.1
      · decide

theorem bigMsg_pls_chars :
    ∀ l ∈ renderDateTime tsStart ::
        List.replicate 1661 (['0', '.', '0', '0', '0'] : GoStr),
      ∀ c ∈ l, c ≠ '\n' := by
  intro l hl c hc
  rcases List.mem_cons.mp hl with rfl | hl
  · rcases renderDateTime_chars tsStart c hc with h | rfl | rfl | rfl
    · exact (digit_ne_specials h).1
    · decide
    · decide
    · decide
  · rw [List.eq_of_mem_replicate hl] at hc
    have hb : ∀ x ∈ (['0', '.', '0', '0', '0'] : GoStr), x ≠ '\n' := by decide
    exact hb c hc

theorem bigMsg_pls_ne :
    ∀ l ∈ renderDateTime tsStart ::
        List.replicate 1661 (['0', '.', '0', '0', '0'] : GoStr), l ≠ [] := by
  intro l hl
  rcases List.mem_cons.mp hl with rfl | hl
  · exact renderDateTime_ne_nil tsStart
  · rw [List.eq_of_mem_replicate hl]
    decide

theorem bigMsg_tokens (nm : GoStr) (hn : validateName nm = true) :
    scanNewlineTokens (writeFramed (bigMsg nm)) =
      [] :: [] :: ("timeseries".toList ++ ' ' :: nm) ::
        ((renderDateTime tsStart ::
          List.replicate 1661 (['0', '.', '0', '0', '0'] : GoStr)) ++ [[]]) := by
  show scanNewlineTokens ('\n' :: '\n' ::
    (Message.encode (bigMsg nm) ++ ['\n', '\n'])) = _
  rw [bigMsg_lines]
  exact scanNewlineTokens_framed _ _ (bigMsg_head_chars nm hn) bigMsg_pls_chars

theorem bigMsg_pls_sum :
    (((renderDateTime tsStart ::
        List.replicate 1661 (['0', '.', '0', '0', '0'] : GoStr)).map
      (fun l => byteLen l + 1)).sum) = 9983 := by
  rw [List.map_cons, List.sum_cons, List.map_replicate, List.sum_replicate,
    smul_eq_mul]
  rw [show byteLen (renderDateTime tsStart) + 1 = 17 from by decide]
  rw [show byteLen (['0', '.', '0', '0', '0'] : GoStr) + 1 = 6 from by decide]

theorem bigMsg_byteLen_split (nm : GoStr) :
    byteLen (Message.encode (bigMsg nm)) =
      byteLen ("timeseries".toList ++ ' ' :: nm) + 9983 := by
  rw [bigMsg_lines, byteLen_append, byteLen_flat_lines, bigMsg_pls_sum]

theorem bigMsg_reader_ok (nm : GoStr) (hn : validateName nm = true)
    (hsz : byteLen (Message.encode (bigMsg nm)) + 1 ≤ maxMessageBytes) :
    readerRead (scanNewlineTokens (writeFramed (bigMsg nm))) =
      (.msg (bigMsg nm), ([] : List GoStr)) := by
  rw [bigMsg_tokens nm hn]
  rw [readerRead_cons _ _ (by simp)]
  have hb1 : byteLen (("timeseries".toList ++ ' ' :: nm) ++ ['\n']) =
      byteLen ("timeseries".toList ++ ' ' :: nm) + 1 := by
    rw [byteLen_append]
    rfl
  have hsplit := bigMsg_byteLen_split nm
  rw [← hb1]
  rw [readBody_ok _ _ bigMsg_pls_ne (by rw [hb1, bigMsg_pls_sum]; omega)]
  dsimp only
  have hbuf : (("timeseries".toList ++ ' ' :: nm) ++ ['\n']) ++
      (((renderDateTime tsStart ::
        List.replicate 1661 (['0', '.', '0', '0', '0'] : GoStr)).map
          (fun l => l ++ ['\n'])).flatten) =
      Message.encode (bigMsg nm) ++ ['\n'] := by
    rw [List.append_assoc]
    rw [show (['\n'] : GoStr) ++
      (((renderDateTime tsStart ::
        List.replicate 1661 (['0', '.', '0', '0', '0'] : GoStr)).map
          (fun l => l ++ ['\n'])).flatten) =
      '\n' :: (((renderDateTime tsStart ::
        List.replicate 1661 (['0', '.', '0', '0', '0'] : GoStr)).map
          (fun l => l ++ ['\n'])).flatten) from rfl]
    rw [cons_flatten_shift, ← List.append_assoc, ← bigMsg_lines]
  rw [hbuf]
  rw [Parse_append_newline _ (by omega)]
  rw [bigMsg_parse nm hn (by omega)]

theorem bigMsg_reader_overflow (nm : GoStr) (hn : validateName nm = true)
    (hsz : maxMessageBytes ≤ byteLen (Message.encode (bigMsg nm))) :
    (readerRead (scanNewlineTokens (writeFramed (bigMsg nm)))).1 =
      .failed .messageTooLarge := by
  rw [bigMsg_tokens nm hn]
  rw [readerRead_cons _ _ (by simp)]
  have hb1 : byteLen (("timeseries".toList ++ ' ' :: nm) ++ ['\n']) =
      byteLen ("timeseries".toList ++ ' ' :: nm) + 1 := by
    rw [byteLen_append]
    rfl
  have hsplit := bigMsg_byteLen_split nm
  rw [← hb1]
  obtain ⟨rem, hrb⟩ := readBody_overflow
    (renderDateTime tsStart ::
      List.replicate 1661 (['0', '.', '0', '0', '0'] : GoStr))
    (("timeseries".toList ++ ' ' :: nm) ++ ['\n']) [[]]
    (by simp) bigMsg_pls_ne (by rw [hb1, bigMsg_pls_sum]; omega)
  rw [hrb]

/-- C7 (corrected): oversized inputs and inputs with a byte outside
printable ASCII plus newline (carriage return included) are rejected by
`Parse`; a valid body of exactly 10000 bytes is accepted by `Parse` called
directly while 10001 bytes are rejected as too large; through the stream
`Reader`, whose buffer holds the body plus a trailing newline, the
10000-byte body is rejected as too large, a 9999-byte body goes through,
and a carriage return in the stream is rejected, not stripped. -/
theorem parse_limits_spec (data : GoStr) :
    (byteLen data > maxMessageBytes → Parse data = .error .messageTooLarge) ∧
    (byteLen data ≤ maxMessageBytes → isPrintableASCII data = false →
      Parse data = .error .invalidCharacters) ∧
    ('\r' ∈ data → isPrintableASCII data = false) ∧
    byteLen (Message.encode (bigMsg ("abcdef".toList))) = 10000 ∧
    Parse (Message.encode (bigMsg ("abcdef".toList))) =
      .ok (bigMsg ("abcdef".toList)) ∧
    byteLen (Message.encode (bigMsg ("abcdefg".toList))) = 10001 ∧
    Parse (Message.encode (bigMsg ("abcdefg".toList))) =
      .error .messageTooLarge ∧
    (readerRead (scanNewlineTokens (writeFramed
      (bigMsg ("abcdef".toList))))).1 = .failed .messageTooLarge ∧
    byteLen (Message.encode (bigMsg ("abcde".toList))) = 9999 ∧
    (readerRead (scanNewlineTokens (writeFramed
      (bigMsg ("abcde".toList))))).1 = .msg (bigMsg ("abcde".toList)) ∧
    (readerRead (scanNewlineTokens
      ("\n\npointvalue a\r\n0.000\n\n".toList))).1 =
        .failed .invalidCharacters := by
  refine ⟨?_, ?_, ?_, ?_, ?_, ?_, ?_, ?_, ?_, ?_, ?_⟩
  · intro h
    unfold Parse
    rw [if_pos h]
  · intro hsz hbad
    unfold Parse
    rw [if_neg (by omega),
      if_pos (show ¬ isPrintableASCII data = true by rw [hbad]; simp)]
  · intro h
    cases hq : isPrintableASCII data with
    | false => rfl
    | true =>
      exfalso
      unfold isPrintableASCII at hq
      have h2 := List.all_eq_true.mp hq '\r' h
      revert h2
      decide
  · rw [bigMsg_byteLen]
    decide
  · exact bigMsg_parse _ (by decide) (by rw [bigMsg_byteLen]; decide)
  · rw [bigMsg_byteLen]
    decide
  · unfold Parse
    rw [if_pos (by rw [bigMsg_byteLen]; decide)]
  · exact bigMsg_reader_overflow _ (by decide) (by rw [bigMsg_byteLen]; decide)
  · rw [bigMsg_byteLen]
    decide
  · rw [bigMsg_reader_ok _ (by decide) (by rw [bigMsg_byteLen]; decide)]
  · decide

/-- A concrete run of the size and character limits: a lone carriage
return is not printable, and a 10001-byte input is rejected as too
large. -/
theorem parse_limits_spec_witness :
    isPrintableASCII ['\r'] = false ∧
    Parse (List.replicate 10001 'a') = .error .messageTooLarge := by
  have h1 := parse_limits_spec ['\r']
  have h2 := parse_limits_spec (List.replicate 10001 'a')
  refine ⟨h1.2.2.1 (by decide), h2.1 ?_⟩
  rw [byteLen_replicate]
  decide

/-- C7 counterexample to the claim as stated: a syntactically valid
message whose body is exactly 10000 bytes is accepted by `Parse` called
directly, yet rejected as too large when it arrives through the stream
`Reader`. -/
theorem parse_limits_counterexample :
    MessageValid (bigMsg ("abcdef".toList)) ∧
    byteLen (Message.encode (bigMsg ("abcdef".toList))) = 10000 ∧
    Parse (Message.encode (bigMsg ("abcdef".toList))) =
      .ok (bigMsg ("abcdef".toList)) ∧
    (readerRead (scanNewlineTokens (writeFramed
      (bigMsg ("abcdef".toList))))).1 = .failed .messageTooLarge := by
  refine ⟨bigMsg_valid _ (by decide) (by rw [bigMsg_byteLen]; decide),
    ?_, ?_, ?_⟩
  · rw [bigMsg_byteLen]
    decide
  · exact bigMsg_parse _ (by decide) (by rw [bigMsg_byteLen]; decide)
  · exact bigMsg_reader_overflow _ (by decide) (by rw [bigMsg_byteLen]; decide)

end Shem
